import Mathlib

/-!
# Verification of the SparseMatrix core (`src/matrix.js`)

Shallow embedding of the sparse-matrix component:

* Text is modelled as `List Char` (abbreviated `Str`).  JS `String.split('\n')`,
  `String.trim()` and the two regular expressions used by the parser are embedded
  as executable functions on character lists; the regexes are *unanchored*
  (leftmost-match) exactly as in JS.
* The JS `Map` keyed by the string `` `${row},${col}` `` is modelled as an
  association list keyed by the pair `(row, col)` with JS `Map.set` semantics
  (update in place keeps the position, a fresh key is appended).  The string key
  encoding itself is embedded as `keyChars` and proved injective below, so the
  two views of the map coincide on every reachable state.
* JS numbers hold integer values here (`Int` for element values, `Nat` for
  coordinates and dimensions), following the spec's integer data model.
* The distinct `throw` sites of the source become the constructors of `Err`;
  `fs.readFileSync` is an input to `fromFile` (`Except FsErr String`), and the
  source's `error.code === 'ENOENT'` test is embedded as written.
* The imperative arithmetic methods mutate only a freshly constructed result
  matrix; a store-passing version (`Store` = list of matrices, mutation =
  `List.set`) embeds that aliasing structure so the frame property is a real
  statement.
-/

abbrev Str := List Char

/-- Model of the JS regex class `\d` (ASCII digits). -/
def isDig (ch : Char) : Bool := ch.isDigit

/-- Model of JS whitespace (`\s`, `String.trim`), restricted to the ASCII
whitespace characters relevant to this format. -/
def isWS (ch : Char) : Bool := ch = ' ' || ch = '\t' || ch = '\n' || ch = '\r'

def digitChar : Nat → Char
  | 0 => '0' | 1 => '1' | 2 => '2' | 3 => '3' | 4 => '4'
  | 5 => '5' | 6 => '6' | 7 => '7' | 8 => '8' | _ => '9'

def digitVal (ch : Char) : Nat := ch.toNat - 48

/-- Embeds `parseInt` on a run of ASCII digits. -/
def parseDigits (l : Str) : Nat := l.foldl (fun a ch => a * 10 + digitVal ch) 0

/-- Decimal rendering of a natural number (JS `${n}` for a non-negative integer). -/
def natToChars (n : Nat) : Str :=
  if _h : n < 10 then [digitChar n]
  else natToChars (n / 10) ++ [digitChar (n % 10)]
decreasing_by exact Nat.div_lt_self (by omega) (by omega)

/-- Decimal rendering of an integer (JS `${v}`). -/
def intToChars (v : Int) : Str :=
  if v < 0 then '-' :: natToChars v.natAbs else natToChars v.toNat

/-- JS `String.prototype.split(sep)` for a one-character separator. -/
def splitOnChar (sep : Char) : Str → List Str
  | [] => [[]]
  | ch :: rest =>
    if ch = sep then [] :: splitOnChar sep rest
    else
      match splitOnChar sep rest with
      | [] => [[ch]]
      | l :: ls => (ch :: l) :: ls

/-- JS `String.prototype.trim()`. -/
def trimChars (l : Str) : Str :=
  ((l.dropWhile isWS).reverse.dropWhile isWS).reverse

/-- Strip a literal tag from the front of a string, returning the remainder. -/
def stripTag : Str → Str → Option Str
  | [], l => some l
  | _ :: _, [] => none
  | t :: ts, ch :: cs => if ch = t then stripTag ts cs else none

/-- One attempt of the header regex `tag(\d+)` at the current position: the
literal tag followed by a maximal non-empty digit run (the capture). -/
def tryHeaderHere (tag : Str) (l : Str) : Option Str :=
  match stripTag tag l with
  | some rest =>
    match rest.takeWhile isDig with
    | [] => none
    | ds => some ds
  | none => none

/-- JS `str.match(/tag(\d+)/)`: leftmost match, returning the digit capture. -/
def headerCapture (tag : Str) : Str → Option Str
  | [] => none
  | ch :: rest =>
    match tryHeaderHere tag (ch :: rest) with
    | some ds => some ds
    | none => headerCapture tag rest

def rowsTag : Str := "rows=".data

def colsTag : Str := "cols=".data

/-- Embeds `parseInt` applied to the header capture. -/
def headerNat (tag : Str) (l : Str) : Option Nat :=
  (headerCapture tag l).map parseDigits

/-- A maximal non-empty digit run and the remainder (`(\d+)` at this position). -/
def munchDigits (l : Str) : Option (Nat × Str) :=
  match l.takeWhile isDig with
  | [] => none
  | ds => some (parseDigits ds, l.dropWhile isDig)

/-- One attempt of the element regex `\((\d+),\s*(\d+),\s*(-?\d+)\)` at the
current position.  The greedy left-to-right match is complete for this pattern
(every sub-pattern is followed by a character its own character class excludes),
so no backtracking is modelled. -/
def tryElemHere : Str → Option (Nat × Nat × Int)
  | '(' :: r1 =>
    match munchDigits r1 with
    | some (a, ',' :: r3) =>
      match munchDigits (r3.dropWhile isWS) with
      | some (b, ',' :: r6) =>
        match r6.dropWhile isWS with
        | '-' :: r8 =>
          match munchDigits r8 with
          | some (v, ')' :: _) => some (a, b, -(v : Int))
          | _ => none
        | r7 =>
          match munchDigits r7 with
          | some (v, ')' :: _) => some (a, b, (v : Int))
          | _ => none
      | _ => none
    | _ => none
  | _ => none

/-- JS `line.match(/\((\d+),\s*(\d+),\s*(-?\d+)\)/)`: leftmost match. -/
def elemCapture : Str → Option (Nat × Nat × Int)
  | [] => none
  | ch :: rest =>
    match tryElemHere (ch :: rest) with
    | some t => some t
    | none => elemCapture rest

/-- The JS map key `` `${row},${col}` ``. -/
def keyChars (r c : Nat) : Str := natToChars r ++ ',' :: natToChars c

/-! ## The SparseMatrix data model -/

/-- Embeds `class SparseMatrix`: declared dimensions plus the element map
(association list keyed by the coordinate pair, in `Map` insertion order). -/
structure SparseMatrix where
  rows : Nat
  cols : Nat
  elements : List ((Nat × Nat) × Int)
deriving DecidableEq

/-- Embeds `Map.prototype.get`. -/
def findVal (k : Nat × Nat) : List ((Nat × Nat) × Int) → Option Int
  | [] => none
  | (k2, v) :: rest => if k = k2 then some v else findVal k rest

/-- Embeds `Map.prototype.set`: an existing key keeps its position and gets the new
value; a fresh key is appended. -/
def mapSet (k : Nat × Nat) (v : Int) : List ((Nat × Nat) × Int) → List ((Nat × Nat) × Int)
  | [] => [(k, v)]
  | (k2, v2) :: rest => if k = k2 then (k, v) :: rest else (k2, v2) :: mapSet k v rest

namespace SparseMatrix

/-- Embeds `getElement(row, col)`: `this.elements.get(key) || 0` (a stored 0 and an
absent key both yield 0, exactly as with JS `|| 0`). -/
def getElement (m : SparseMatrix) (r c : Nat) : Int :=
  (findVal (r, c) m.elements).getD 0

/-- Embeds `setElement(row, col, value)` with growth-on-write. -/
def setElement (m : SparseMatrix) (r c : Nat) (v : Int) : SparseMatrix :=
  { rows := if r ≥ m.rows then r + 1 else m.rows
    cols := if c ≥ m.cols then c + 1 else m.cols
    elements := mapSet (r, c) v m.elements }

end SparseMatrix

/-! ## Errors -/

/-- The distinct `throw` sites of the source, as distinguishable categories
(spec section 7): `notEnoughLines`, `badHeader` and `badLine` are the
`FormatError`s, `dimMismatch` the `DimensionMismatchError`, `notFound` the
`NotFoundError`, `ioErr` a generic read failure. -/
inductive Err where
  | notEnoughLines (path : String)
  | badHeader (path : String)
  | badLine (lineNo : Nat) (content : Str) (path : String)
  | dimMismatch (msg : String)
  | notFound (path : String)
  | ioErr (code : String)
deriving DecidableEq

def addMsg : String := "Matrices must have the same dimensions for addition."

def subMsg : String := "Matrices must have the same dimensions for subtraction."

def mulMsg : String := "Number of columns of first matrix must equal number of rows of second matrix."

namespace SparseMatrix

/-- Embeds `add(other)`. -/
def add (a b : SparseMatrix) : Except Err SparseMatrix :=
  if a.rows ≠ b.rows ∨ a.cols ≠ b.cols then .error (.dimMismatch addMsg)
  else
    let result : SparseMatrix := ⟨a.rows, a.cols, []⟩
    let result := a.elements.foldl (fun res e => res.setElement e.1.1 e.1.2 e.2) result
    let result := b.elements.foldl
      (fun res e => res.setElement e.1.1 e.1.2 (res.getElement e.1.1 e.1.2 + e.2)) result
    .ok result

/-- Embeds `subtract(other)`. -/
def subtract (a b : SparseMatrix) : Except Err SparseMatrix :=
  if a.rows ≠ b.rows ∨ a.cols ≠ b.cols then .error (.dimMismatch subMsg)
  else
    let result : SparseMatrix := ⟨a.rows, a.cols, []⟩
    let result := a.elements.foldl (fun res e => res.setElement e.1.1 e.1.2 e.2) result
    let result := b.elements.foldl
      (fun res e => res.setElement e.1.1 e.1.2 (res.getElement e.1.1 e.1.2 - e.2)) result
    .ok result

/-- Embeds `multiply(other)`: iterate the stored elements of `this`; for each, scan
`k` over `0 .. other.cols - 1` and accumulate into the result when
`other.getElement(col, k)` is nonzero. -/
def multiply (a b : SparseMatrix) : Except Err SparseMatrix :=
  if a.cols ≠ b.rows then .error (.dimMismatch mulMsg)
  else
    .ok <| a.elements.foldl
      (fun res e =>
        (List.range b.cols).foldl
          (fun res k =>
            let otherValue := b.getElement e.1.2 k
            if otherValue ≠ 0 then
              res.setElement e.1.1 k (res.getElement e.1.1 k + e.2 * otherValue)
            else res)
          res)
      (⟨a.rows, b.cols, []⟩ : SparseMatrix)

/-- Embeds `toString()`: the two header lines, one line per stored element in map
order, each terminated by `\n`, with the final result trimmed. -/
def toString (m : SparseMatrix) : Str :=
  trimChars <| m.elements.foldl
    (fun acc e =>
      acc ++ '(' :: natToChars e.1.1 ++ ',' :: ' ' :: natToChars e.1.2
          ++ ',' :: ' ' :: intToChars e.2 ++ [')', '\n'])
    (rowsTag ++ natToChars m.rows ++ '\n' :: colsTag ++ natToChars m.cols ++ ['\n'])

end SparseMatrix

/-! ## Parsing (`fromFile`) -/

/-- The element loop of `fromFile` (`for (let i = 2; i < lines.length; i++)`):
skip blank lines, apply each match via `setElement`, fail with the 1-based line
number and the offending content otherwise. -/
def elemLoop (path : String) : Nat → List Str → SparseMatrix → Except Err SparseMatrix
  | _, [], m => .ok m
  | i, line :: rest, m =>
    if line.isEmpty then elemLoop path (i + 1) rest m
    else
      match elemCapture line with
      | some t => elemLoop path (i + 1) rest (m.setElement t.1 t.2.1 t.2.2)
      | none => .error (.badLine (i + 1) line path)

/-- Embeds `fromFile` after the read: length check, header matches, element loop. -/
def parseLines (path : String) : List Str → Except Err SparseMatrix
  | l0 :: l1 :: rest =>
    match headerNat rowsTag l0, headerNat colsTag l1 with
    | some totalRows, some totalCols => elemLoop path 2 rest ⟨totalRows, totalCols, []⟩
    | _, _ => .error (.badHeader path)
  | _ => .error (.notEnoughLines path)

/-- Embeds `content.split('\n').map(line => line.trim())` followed by `parseLines`. -/
def parseContent (path : String) (content : Str) : Except Err SparseMatrix :=
  parseLines path ((splitOnChar '\n' content).map trimChars)

/-- Outcome of `fs.readFileSync`, supplied to `fromFile` as an input; `code` is
the JS error code (`'ENOENT'` when the path cannot be located). -/
structure FsErr where
  code : String
deriving DecidableEq

/-- Embeds `static fromFile(filePath)`: on a read failure re-throw `ENOENT` as the
not-found error and anything else unchanged; parse errors thrown inside the
`try` carry no `code` and propagate as themselves. -/
def fromFile (path : String) (readResult : Except FsErr String) : Except Err SparseMatrix :=
  match readResult with
  | .ok content => parseContent path content.data
  | .error e => if e.code = "ENOENT" then .error (.notFound path) else .error (.ioErr e.code)

/-! ## Store-passing embedding of the arithmetic methods

The JS methods mutate only the freshly constructed `result` object.  To state
that as a frame property, a store (list of matrix objects, an index being an
object reference) is threaded through the same loops: the result is allocated
at the fresh index `s.length` and every write targets that index. -/

abbrev Store := List SparseMatrix

/-- Embeds `m.setElement(r, c, v)` on the object at index `i` of the store. -/
def storeSetElement (s : Store) (i : Nat) (r c : Nat) (v : Int) : Store :=
  match s[i]? with
  | some m => s.set i (m.setElement r c v)
  | none => s

/-- Embeds `m.getElement(r, c)` on the object at index `i` of the store. -/
def storeGetElement (s : Store) (i : Nat) (r c : Nat) : Int :=
  match s[i]? with
  | some m => m.getElement r c
  | none => 0

/-- Embeds `add` with `this` at index `i`, `other` at index `j`; returns the store and
the reference to the freshly allocated result. -/
def addS (s : Store) (i j : Nat) : Store × Except Err Nat :=
  match s[i]?, s[j]? with
  | some a, some b =>
    if a.rows ≠ b.rows ∨ a.cols ≠ b.cols then (s, .error (.dimMismatch addMsg))
    else
      let n := s.length
      let s1 := s ++ [(⟨a.rows, a.cols, []⟩ : SparseMatrix)]
      let s2 := a.elements.foldl (fun st e => storeSetElement st n e.1.1 e.1.2 e.2) s1
      let s3 := b.elements.foldl
        (fun st e => storeSetElement st n e.1.1 e.1.2 (storeGetElement st n e.1.1 e.1.2 + e.2)) s2
      (s3, .ok n)
  | _, _ => (s, .error (.ioErr "TypeError"))

/-- Embeds `subtract` in the store-passing embedding. -/
def subtractS (s : Store) (i j : Nat) : Store × Except Err Nat :=
  match s[i]?, s[j]? with
  | some a, some b =>
    if a.rows ≠ b.rows ∨ a.cols ≠ b.cols then (s, .error (.dimMismatch subMsg))
    else
      let n := s.length
      let s1 := s ++ [(⟨a.rows, a.cols, []⟩ : SparseMatrix)]
      let s2 := a.elements.foldl (fun st e => storeSetElement st n e.1.1 e.1.2 e.2) s1
      let s3 := b.elements.foldl
        (fun st e => storeSetElement st n e.1.1 e.1.2 (storeGetElement st n e.1.1 e.1.2 - e.2)) s2
      (s3, .ok n)
  | _, _ => (s, .error (.ioErr "TypeError"))

/-- Embeds `multiply` in the store-passing embedding. -/
def multiplyS (s : Store) (i j : Nat) : Store × Except Err Nat :=
  match s[i]?, s[j]? with
  | some a, some b =>
    if a.cols ≠ b.rows then (s, .error (.dimMismatch mulMsg))
    else
      let n := s.length
      let s1 := s ++ [(⟨a.rows, b.cols, []⟩ : SparseMatrix)]
      let s2 := a.elements.foldl
        (fun st e =>
          (List.range b.cols).foldl
            (fun st k =>
              let otherValue := b.getElement e.1.2 k
              if otherValue ≠ 0 then
                storeSetElement st n e.1.1 k (storeGetElement st n e.1.1 k + e.2 * otherValue)
              else st)
            st)
        s1
      (s2, .ok n)
  | _, _ => (s, .error (.ioErr "TypeError"))

/-! ## Spec-worded definition for the header refinement

The spec demands header lines "exactly matching `rows=\d+`".  This definition
follows the spec's words (anchored at both ends), to be compared with the
source's unanchored `headerCapture`. -/

/-- The spec's words: the whole (trimmed) line is the tag followed by a
non-empty digit run, nothing else. -/
def specExactHeader (tag : Str) (l : Str) : Bool :=
  match stripTag tag l with
  | some rest => !rest.isEmpty && rest.all isDig
  | none => false

/-! ## Invariants -/

/-- The data-model invariant (spec section 3): every stored coordinate lies
within the declared dimensions; additionally the `Map` guarantee that keys are
unique. -/
def WF (m : SparseMatrix) : Prop :=
  (∀ e ∈ m.elements, e.1.1 < m.rows ∧ e.1.2 < m.cols) ∧ (m.elements.map Prod.fst).Nodup

instance (m : SparseMatrix) : Decidable (WF m) := by
  unfold WF; infer_instance

/-- Matrices built by the constructor followed by a sequence of `setElement`
calls. -/
inductive Reachable : SparseMatrix → Prop
  | new (rows cols : Nat) : Reachable ⟨rows, cols, []⟩
  | set (m : SparseMatrix) (r c : Nat) (v : Int) :
      Reachable m → Reachable (m.setElement r c v)

/-! ## Lemmas: the element map -/

theorem findVal_mapSet_self (k : Nat × Nat) (v : Int) (l : List ((Nat × Nat) × Int)) :
    findVal k (mapSet k v l) = some v := by
  induction l with
  | nil => simp [mapSet, findVal]
  | cons e rest ih =>
    obtain ⟨k2, v2⟩ := e
    by_cases h : k = k2
    · simp [mapSet, h, findVal]
    · simp [mapSet, h, findVal, ih]

theorem findVal_mapSet_ne (k k2 : Nat × Nat) (v : Int) (l : List ((Nat × Nat) × Int))
    (h : k2 ≠ k) : findVal k2 (mapSet k v l) = findVal k2 l := by
  induction l with
  | nil => simp [mapSet, findVal, h]
  | cons e rest ih =>
    obtain ⟨k3, v3⟩ := e
    by_cases h3 : k = k3
    · subst h3; simp [mapSet, findVal, h, ih]
    · simp [mapSet, h3, findVal, ih]

theorem mem_mapSet (k : Nat × Nat) (v : Int) :
    ∀ (l : List ((Nat × Nat) × Int)) (e : (Nat × Nat) × Int),
      e ∈ mapSet k v l → e = (k, v) ∨ e ∈ l
  | [], e, h => by simpa [mapSet] using h
  | (k3, v3) :: rest, e, h => by
    by_cases h3 : k = k3
    · subst h3
      simp only [mapSet, if_true, eq_self_iff_true, List.mem_cons] at h
      rcases h with h | h
      · exact Or.inl h
      · exact Or.inr (List.mem_cons_of_mem _ h)
    · simp only [mapSet, if_neg h3, List.mem_cons] at h
      rcases h with h | h
      · exact Or.inr (h ▸ List.mem_cons_self _ _)
      · rcases mem_mapSet k v rest e h with h2 | h2
        · exact Or.inl h2
        · exact Or.inr (List.mem_cons_of_mem _ h2)

theorem map_fst_mapSet (k : Nat × Nat) (v : Int) (l : List ((Nat × Nat) × Int)) :
    (mapSet k v l).map Prod.fst =
      if k ∈ l.map Prod.fst then l.map Prod.fst else l.map Prod.fst ++ [k] := by
  induction l with
  | nil => simp [mapSet]
  | cons e rest ih =>
    obtain ⟨k2, v2⟩ := e
    by_cases h : k = k2
    · subst h; simp [mapSet]
    · by_cases h2 : k ∈ rest.map Prod.fst <;>
        simp [mapSet, h, ih, h2, Ne.symm h]

theorem nodup_map_fst_mapSet (k : Nat × Nat) (v : Int) (l : List ((Nat × Nat) × Int))
    (h : (l.map Prod.fst).Nodup) : ((mapSet k v l).map Prod.fst).Nodup := by
  rw [map_fst_mapSet]
  by_cases h2 : k ∈ l.map Prod.fst
  · simpa [h2] using h
  · simp [h2, List.nodup_append, h]

theorem findVal_eq_none_of_not_mem (k : Nat × Nat) (l : List ((Nat × Nat) × Int))
    (h : k ∉ l.map Prod.fst) : findVal k l = none := by
  induction l with
  | nil => rfl
  | cons e rest ih =>
    obtain ⟨k2, v2⟩ := e
    simp only [List.map_cons, List.mem_cons] at h
    push_neg at h
    simp [findVal, h.1, ih h.2]

theorem mapSet_of_not_mem (k : Nat × Nat) (v : Int) (l : List ((Nat × Nat) × Int))
    (h : k ∉ l.map Prod.fst) : mapSet k v l = l ++ [(k, v)] := by
  induction l with
  | nil => rfl
  | cons e rest ih =>
    obtain ⟨k2, v2⟩ := e
    simp only [List.map_cons, List.mem_cons] at h
    push_neg at h
    simp [mapSet, h.1, ih h.2]

/-! ## Lemmas: getElement / setElement -/

namespace SparseMatrix

theorem getElement_setElement_self (m : SparseMatrix) (r c : Nat) (v : Int) :
    (m.setElement r c v).getElement r c = v := by
  simp [getElement, setElement, findVal_mapSet_self]

theorem getElement_setElement_ne (m : SparseMatrix) (r c r2 c2 : Nat) (v : Int)
    (h : (r2, c2) ≠ (r, c)) :
    (m.setElement r c v).getElement r2 c2 = m.getElement r2 c2 := by
  simp [getElement, setElement, findVal_mapSet_ne _ _ _ _ h]

theorem setElement_dims (m : SparseMatrix) (r c : Nat) (v : Int) :
    m.rows ≤ (m.setElement r c v).rows ∧ r < (m.setElement r c v).rows ∧
    m.cols ≤ (m.setElement r c v).cols ∧ c < (m.setElement r c v).cols := by
  simp only [setElement, ge_iff_le]
  refine ⟨?_, ?_, ?_, ?_⟩ <;> split <;> omega

theorem setElement_rows_of_ge (m : SparseMatrix) (r c : Nat) (v : Int) (h : m.rows ≤ r) :
    (m.setElement r c v).rows = r + 1 := by
  simp only [setElement, ge_iff_le]
  rw [if_pos h]

theorem setElement_cols_of_ge (m : SparseMatrix) (r c : Nat) (v : Int) (h : m.cols ≤ c) :
    (m.setElement r c v).cols = c + 1 := by
  simp only [setElement, ge_iff_le]
  rw [if_pos h]

theorem setElement_of_lt (m : SparseMatrix) (r c : Nat) (v : Int)
    (hr : r < m.rows) (hc : c < m.cols) :
    m.setElement r c v = ⟨m.rows, m.cols, mapSet (r, c) v m.elements⟩ := by
  simp only [setElement, ge_iff_le]
  rw [if_neg (by omega), if_neg (by omega)]

end SparseMatrix

theorem WF_setElement (m : SparseMatrix) (r c : Nat) (v : Int) (h : WF m) :
    WF (m.setElement r c v) := by
  obtain ⟨hin, hnd⟩ := h
  obtain ⟨h1, h2, h3, h4⟩ := m.setElement_dims r c v
  refine ⟨?_, ?_⟩
  · intro e he
    rcases mem_mapSet _ _ _ _ he with h5 | h5
    · subst h5; exact ⟨h2, h4⟩
    · obtain ⟨hr, hc⟩ := hin e h5
      exact ⟨lt_of_lt_of_le hr h1, lt_of_lt_of_le hc h3⟩
  · exact nodup_map_fst_mapSet _ _ _ hnd

theorem WF_of_reachable (m : SparseMatrix) (h : Reachable m) : WF m := by
  induction h with
  | new rows cols => exact ⟨by simp, by simp⟩
  | set m r c v _ ih => exact WF_setElement m r c v ih

/-! ## Lemmas: decimal rendering and the map key encoding -/

theorem digitVal_digitChar (d : Nat) (h : d < 10) : digitVal (digitChar d) = d := by
  interval_cases d <;> decide

theorem isDig_digitChar (d : Nat) (h : d < 10) : isDig (digitChar d) = true := by
  interval_cases d <;> decide

theorem natToChars_all_dig (n : Nat) : ∀ ch ∈ natToChars n, isDig ch = true := by
  induction n using Nat.strong_induction_on with
  | _ n ih =>
    rw [natToChars]
    split
    · intro ch hch
      simp only [List.mem_singleton] at hch
      exact hch ▸ isDig_digitChar n (by omega)
    · intro ch hch
      rcases List.mem_append.mp hch with h2 | h2
      · exact ih (n / 10) (Nat.div_lt_self (by omega) (by omega)) ch h2
      · simp only [List.mem_singleton] at h2
        exact h2 ▸ isDig_digitChar (n % 10) (Nat.mod_lt _ (by omega))

theorem natToChars_ne_nil (n : Nat) : natToChars n ≠ [] := by
  rw [natToChars]; split <;> simp

theorem parseDigits_snoc (l : Str) (c : Char) :
    parseDigits (l ++ [c]) = parseDigits l * 10 + digitVal c := by
  simp [parseDigits, List.foldl_append]

theorem parseDigits_natToChars (n : Nat) : parseDigits (natToChars n) = n := by
  induction n using Nat.strong_induction_on with
  | _ n ih =>
    rw [natToChars]
    split
    · simp [parseDigits, digitVal_digitChar n (by omega)]
    · rw [parseDigits_snoc, ih (n / 10) (Nat.div_lt_self (by omega) (by omega)),
        digitVal_digitChar (n % 10) (Nat.mod_lt _ (by omega))]
      omega

theorem natToChars_inj {m n : Nat} (h : natToChars m = natToChars n) : m = n := by
  have h2 := parseDigits_natToChars m
  rw [h, parseDigits_natToChars] at h2
  omega

theorem comma_not_mem_natToChars (n : Nat) : ',' ∉ natToChars n := by
  intro h
  exact absurd (natToChars_all_dig n ',' h) (by decide)

theorem append_comma_inj {A B A2 B2 : Str} (hA : ',' ∉ A) (hA2 : ',' ∉ A2)
    (h : A ++ ',' :: B = A2 ++ ',' :: B2) : A = A2 ∧ B = B2 := by
  induction A generalizing A2 with
  | nil =>
    cases A2 with
    | nil => simpa using h
    | cons b bs =>
      simp only [List.nil_append, List.cons_append, List.cons.injEq] at h
      exact absurd (h.1 ▸ List.mem_cons_self b bs) hA2
  | cons a as ih =>
    cases A2 with
    | nil =>
      simp only [List.nil_append, List.cons_append, List.cons.injEq] at h
      exact absurd (h.1 ▸ List.mem_cons_self a as) hA
    | cons b bs =>
      simp only [List.cons_append, List.cons.injEq] at h
      obtain ⟨hab, h2⟩ := h
      have hAs : ',' ∉ as := fun h3 => hA (List.mem_cons_of_mem _ h3)
      have hBs : ',' ∉ bs := fun h3 => hA2 (List.mem_cons_of_mem _ h3)
      obtain ⟨h4, h5⟩ := ih hAs hBs h2
      exact ⟨by rw [hab, h4], h5⟩

theorem keyChars_inj (r c r2 c2 : Nat) (h : keyChars r c = keyChars r2 c2) :
    r = r2 ∧ c = c2 := by
  obtain ⟨h1, h2⟩ := append_comma_inj (comma_not_mem_natToChars r)
    (comma_not_mem_natToChars r2) h
  exact ⟨natToChars_inj h1, natToChars_inj h2⟩

/-! ## Lemmas: the copy and accumulate loops of add / subtract -/

theorem findVal_cons (k : Nat × Nat) (e : (Nat × Nat) × Int) (rest : List ((Nat × Nat) × Int)) :
    findVal k (e :: rest) = if k = e.1 then some e.2 else findVal k rest := by
  obtain ⟨k2, v2⟩ := e
  rfl

theorem mem_of_findVal_eq_some (k : Nat × Nat) (l : List ((Nat × Nat) × Int)) (v : Int)
    (h : findVal k l = some v) : k ∈ l.map Prod.fst := by
  induction l with
  | nil => simp [findVal] at h
  | cons e rest ih =>
    rw [findVal_cons] at h
    by_cases h2 : k = e.1
    · simp [h2]
    · rw [if_neg h2] at h
      simp [ih h]

/-- Result of accumulating an optional stored value onto the current one. -/
def accumVal (g : Int → Int → Int) (x : Int) : Option Int → Int
  | some v => g x v
  | none => x

theorem foldl_setElement_copy (L : List ((Nat × Nat) × Int)) :
    ∀ (m0 : SparseMatrix),
      (∀ e ∈ L, e.1.1 < m0.rows ∧ e.1.2 < m0.cols) →
      (∀ e ∈ L, e.1 ∉ m0.elements.map Prod.fst) →
      (L.map Prod.fst).Nodup →
      L.foldl (fun res e => res.setElement e.1.1 e.1.2 e.2) m0 =
        ⟨m0.rows, m0.cols, m0.elements ++ L⟩ := by
  induction L with
  | nil =>
    intro m0 _ _ _
    simp
  | cons e rest ih =>
    intro m0 hin hdisj hnd
    obtain ⟨hr, hc⟩ := hin e (List.mem_cons_self e rest)
    have hstep : m0.setElement e.1.1 e.1.2 e.2 = ⟨m0.rows, m0.cols, m0.elements ++ [e]⟩ := by
      rw [SparseMatrix.setElement_of_lt m0 _ _ _ hr hc,
        mapSet_of_not_mem _ _ _ (hdisj e (List.mem_cons_self e rest))]
    rw [List.foldl_cons, hstep,
      ih ⟨m0.rows, m0.cols, m0.elements ++ [e]⟩
        (fun e2 he2 => hin e2 (List.mem_cons_of_mem e he2))
        (by
          intro e2 he2
          simp only [List.map_append, List.mem_append]
          push_neg
          refine ⟨hdisj e2 (List.mem_cons_of_mem e he2), ?_⟩
          simp only [List.map_cons, List.map_nil, List.mem_singleton]
          intro hk
          have hnd2 := hnd
          simp only [List.map_cons, List.nodup_cons] at hnd2
          exact hnd2.1 (hk ▸ List.mem_map_of_mem Prod.fst he2))
        (by simpa using hnd.of_cons)]
    simp

theorem foldl_setElement_accum (g : Int → Int → Int) (L : List ((Nat × Nat) × Int)) :
    ∀ (m0 : SparseMatrix),
      (∀ e ∈ L, e.1.1 < m0.rows ∧ e.1.2 < m0.cols) →
      (L.map Prod.fst).Nodup →
      (L.foldl (fun res e =>
          res.setElement e.1.1 e.1.2 (g (res.getElement e.1.1 e.1.2) e.2)) m0).rows = m0.rows ∧
      (L.foldl (fun res e =>
          res.setElement e.1.1 e.1.2 (g (res.getElement e.1.1 e.1.2) e.2)) m0).cols = m0.cols ∧
      ∀ r c, (L.foldl (fun res e =>
          res.setElement e.1.1 e.1.2 (g (res.getElement e.1.1 e.1.2) e.2)) m0).getElement r c =
        accumVal g (m0.getElement r c) (findVal (r, c) L) := by
  induction L with
  | nil =>
    intro m0 _ _
    exact ⟨rfl, rfl, fun r c => rfl⟩
  | cons e rest ih =>
    intro m0 hin hnd
    obtain ⟨hr, hc⟩ := hin e (List.mem_cons_self e rest)
    have hstep : m0.setElement e.1.1 e.1.2 (g (m0.getElement e.1.1 e.1.2) e.2) =
        ⟨m0.rows, m0.cols, mapSet (e.1.1, e.1.2) (g (m0.getElement e.1.1 e.1.2) e.2) m0.elements⟩ :=
      SparseMatrix.setElement_of_lt m0 _ _ _ hr hc
    have hm1rows : (m0.setElement e.1.1 e.1.2 (g (m0.getElement e.1.1 e.1.2) e.2)).rows = m0.rows := by
      rw [hstep]
    have hm1cols : (m0.setElement e.1.1 e.1.2 (g (m0.getElement e.1.1 e.1.2) e.2)).cols = m0.cols := by
      rw [hstep]
    have hkey : e.1 ∉ rest.map Prod.fst := by
      have hnd2 := hnd
      simp only [List.map_cons, List.nodup_cons] at hnd2
      exact hnd2.1
    obtain ⟨ihr, ihc, ihget⟩ := ih (m0.setElement e.1.1 e.1.2 (g (m0.getElement e.1.1 e.1.2) e.2))
      (fun e2 he2 => by
        rw [hm1rows, hm1cols]
        exact hin e2 (List.mem_cons_of_mem e he2))
      (by simpa using hnd.of_cons)
    rw [List.foldl_cons]
    refine ⟨by rw [ihr, hm1rows], by rw [ihc, hm1cols], ?_⟩
    intro r c
    rw [ihget r c, findVal_cons]
    by_cases hk : (r, c) = e.1
    · rw [if_pos hk]
      rw [findVal_eq_none_of_not_mem (r, c) rest (hk ▸ hkey)]
      have : (m0.setElement e.1.1 e.1.2 (g (m0.getElement e.1.1 e.1.2) e.2)).getElement r c =
          g (m0.getElement r c) e.2 := by
        have hk2 : r = e.1.1 ∧ c = e.1.2 := by
          constructor <;> rw [← hk]
        rw [hk2.1, hk2.2]
        exact SparseMatrix.getElement_setElement_self m0 e.1.1 e.1.2 _
      rw [this]
      rfl
    · rw [if_neg hk]
      have hne : (r, c) ≠ (e.1.1, e.1.2) := by
        intro h2
        exact hk (by rw [h2])
      rw [SparseMatrix.getElement_setElement_ne m0 e.1.1 e.1.2 r c _ hne]

theorem WF_foldl {α : Type} (f : SparseMatrix → α → SparseMatrix)
    (hf : ∀ m e, WF m → WF (f m e)) (L : List α) :
    ∀ (m0 : SparseMatrix), WF m0 → WF (L.foldl f m0) := by
  induction L with
  | nil => intro m0 h; exact h
  | cons e rest ih =>
    intro m0 h
    rw [List.foldl_cons]
    exact ih (f m0 e) (hf m0 e h)

theorem WF_empty (rows cols : Nat) : WF ⟨rows, cols, []⟩ := ⟨by simp, by simp⟩

theorem copy_eq (a : SparseMatrix) (hA : WF a) :
    a.elements.foldl (fun res e => res.setElement e.1.1 e.1.2 e.2)
      (⟨a.rows, a.cols, []⟩ : SparseMatrix) = a := by
  rw [foldl_setElement_copy a.elements ⟨a.rows, a.cols, []⟩ hA.1 (by simp) hA.2]
  simp

theorem add_eq_ok (a b : SparseMatrix) (hr : a.rows = b.rows) (hc : a.cols = b.cols) :
    SparseMatrix.add a b = .ok
      (b.elements.foldl
        (fun res e => res.setElement e.1.1 e.1.2 (res.getElement e.1.1 e.1.2 + e.2))
        (a.elements.foldl (fun res e => res.setElement e.1.1 e.1.2 e.2)
          (⟨a.rows, a.cols, []⟩ : SparseMatrix))) := by
  simp [SparseMatrix.add, hr, hc]

theorem subtract_eq_ok (a b : SparseMatrix) (hr : a.rows = b.rows) (hc : a.cols = b.cols) :
    SparseMatrix.subtract a b = .ok
      (b.elements.foldl
        (fun res e => res.setElement e.1.1 e.1.2 (res.getElement e.1.1 e.1.2 - e.2))
        (a.elements.foldl (fun res e => res.setElement e.1.1 e.1.2 e.2)
          (⟨a.rows, a.cols, []⟩ : SparseMatrix))) := by
  simp [SparseMatrix.subtract, hr, hc]

theorem add_spec (a b : SparseMatrix) (hA : WF a) (hB : WF b)
    (hr : a.rows = b.rows) (hc : a.cols = b.cols) :
    ∃ m, SparseMatrix.add a b = .ok m ∧ m.rows = a.rows ∧ m.cols = a.cols ∧ WF m ∧
      ∀ r c, m.getElement r c = a.getElement r c + b.getElement r c := by
  rw [add_eq_ok a b hr hc, copy_eq a hA]
  refine ⟨_, rfl, ?_⟩
  obtain ⟨h1, h2, h3⟩ := foldl_setElement_accum (fun x v => x + v) b.elements a
    (fun e he => by
      obtain ⟨h4, h5⟩ := hB.1 e he
      exact ⟨hr ▸ h4, hc ▸ h5⟩)
    hB.2
  refine ⟨h1, h2, ?_, ?_⟩
  · exact WF_foldl _ (fun m e hm => WF_setElement m _ _ _ hm) b.elements a hA
  · intro r c
    rw [h3 r c]
    cases hfv : findVal (r, c) b.elements with
    | none => simp [accumVal, SparseMatrix.getElement, hfv]
    | some v => simp [accumVal, SparseMatrix.getElement, hfv]

theorem subtract_spec (a b : SparseMatrix) (hA : WF a) (hB : WF b)
    (hr : a.rows = b.rows) (hc : a.cols = b.cols) :
    ∃ m, SparseMatrix.subtract a b = .ok m ∧ m.rows = a.rows ∧ m.cols = a.cols ∧ WF m ∧
      ∀ r c, m.getElement r c = a.getElement r c - b.getElement r c := by
  rw [subtract_eq_ok a b hr hc, copy_eq a hA]
  refine ⟨_, rfl, ?_⟩
  obtain ⟨h1, h2, h3⟩ := foldl_setElement_accum (fun x v => x - v) b.elements a
    (fun e he => by
      obtain ⟨h4, h5⟩ := hB.1 e he
      exact ⟨hr ▸ h4, hc ▸ h5⟩)
    hB.2
  refine ⟨h1, h2, ?_, ?_⟩
  · exact WF_foldl _ (fun m e hm => WF_setElement m _ _ _ hm) b.elements a hA
  · intro r c
    rw [h3 r c]
    cases hfv : findVal (r, c) b.elements with
    | none => simp [accumVal, SparseMatrix.getElement, hfv]
    | some v => simp [accumVal, SparseMatrix.getElement, hfv]

/-! ## Lemmas: the multiply loops -/

/-- The inner `for (let k = 0; k < other.cols; k++)` loop of `multiply`, for one
stored element `(row, col, v1)` of `this`. -/
def mulInner (b : SparseMatrix) (row col : Nat) (v1 : Int) (n : Nat) (m0 : SparseMatrix) :
    SparseMatrix :=
  (List.range n).foldl
    (fun res k =>
      let otherValue := b.getElement col k
      if otherValue ≠ 0 then res.setElement row k (res.getElement row k + v1 * otherValue)
      else res)
    m0

/-- The outer loop of `multiply` over the stored elements of `this`. -/
def mulOuter (b : SparseMatrix) (L : List ((Nat × Nat) × Int)) (m0 : SparseMatrix) :
    SparseMatrix :=
  L.foldl (fun res e => mulInner b e.1.1 e.1.2 e.2 b.cols res) m0

theorem multiply_eq_ok (a b : SparseMatrix) (h : a.cols = b.rows) :
    SparseMatrix.multiply a b = .ok (mulOuter b a.elements ⟨a.rows, b.cols, []⟩) := by
  simp [SparseMatrix.multiply, h, mulOuter, mulInner]

theorem mulInner_spec (b : SparseMatrix) (row col : Nat) (v1 : Int) :
    ∀ (n : Nat) (m0 : SparseMatrix), row < m0.rows → n ≤ m0.cols →
      (mulInner b row col v1 n m0).rows = m0.rows ∧
      (mulInner b row col v1 n m0).cols = m0.cols ∧
      ∀ r q, (mulInner b row col v1 n m0).getElement r q =
        m0.getElement r q + (if r = row ∧ q < n then v1 * b.getElement col q else 0) := by
  intro n
  induction n with
  | zero =>
    intro m0 _ _
    refine ⟨rfl, rfl, ?_⟩
    intro r q
    simp [mulInner]
  | succ n ih =>
    intro m0 hrow hn
    obtain ⟨ihr, ihc, ihget⟩ := ih m0 hrow (by omega)
    have hunf : mulInner b row col v1 (n + 1) m0 =
        (fun res k =>
          let otherValue := b.getElement col k
          if otherValue ≠ 0 then res.setElement row k (res.getElement row k + v1 * otherValue)
          else res) (mulInner b row col v1 n m0) n := by
      rw [mulInner, mulInner, List.range_succ, List.foldl_append, List.foldl_cons, List.foldl_nil]
    by_cases hz : b.getElement col n = 0
    · have hstep : mulInner b row col v1 (n + 1) m0 = mulInner b row col v1 n m0 := by
        rw [hunf]; simp [hz]
      rw [hstep]
      refine ⟨ihr, ihc, ?_⟩
      intro r q
      rw [ihget r q]
      congr 1
      by_cases hr : r = row
      · by_cases hq : q < n
        · have hq2 : q < n + 1 := by omega
          simp [hr, hq, hq2]
        · by_cases hqn : q = n
          · subst hqn
            simp [hr, hz, hq]
          · have hq2 : ¬ q < n + 1 := by omega
            simp [hr, hq, hq2]
      · simp [hr]
    · have hstep : mulInner b row col v1 (n + 1) m0 =
          (mulInner b row col v1 n m0).setElement row n
            ((mulInner b row col v1 n m0).getElement row n + v1 * b.getElement col n) := by
        rw [hunf]; simp [hz]
      rw [hstep]
      have hrowM : row < (mulInner b row col v1 n m0).rows := by rw [ihr]; exact hrow
      have hnM : n < (mulInner b row col v1 n m0).cols := by rw [ihc]; omega
      have hd := SparseMatrix.setElement_of_lt (mulInner b row col v1 n m0) row n
        ((mulInner b row col v1 n m0).getElement row n + v1 * b.getElement col n) hrowM hnM
      refine ⟨by rw [hd]; exact ihr, by rw [hd]; exact ihc, ?_⟩
      intro r q
      by_cases hrq : (r, q) = (row, n)
      · have hr : r = row := congrArg Prod.fst hrq
        have hq : q = n := congrArg Prod.snd hrq
        subst hr; subst hq
        rw [SparseMatrix.getElement_setElement_self, ihget r q]
        have hq2 : ¬ q < q := by omega
        have hq3 : q < q + 1 := by omega
        simp [hq2, hq3]
      · rw [SparseMatrix.getElement_setElement_ne _ row n r q _ hrq, ihget r q]
        congr 1
        by_cases hr : r = row
        · subst hr
          have hqn : q ≠ n := fun h2 => hrq (by rw [h2])
          by_cases hq : q < n
          · have hq2 : q < n + 1 := by omega
            simp [hq, hq2]
          · have hq2 : ¬ q < n + 1 := by omega
            simp [hq, hq2]
        · simp [hr]

theorem mulOuter_spec (b : SparseMatrix) (L : List ((Nat × Nat) × Int)) :
    ∀ m0 : SparseMatrix, (∀ e ∈ L, e.1.1 < m0.rows) → b.cols ≤ m0.cols →
      (mulOuter b L m0).rows = m0.rows ∧ (mulOuter b L m0).cols = m0.cols ∧
      ∀ r q, (mulOuter b L m0).getElement r q = m0.getElement r q +
        (L.map (fun e =>
          if r = e.1.1 ∧ q < b.cols then e.2 * b.getElement e.1.2 q else 0)).sum := by
  induction L with
  | nil =>
    intro m0 _ _
    exact ⟨rfl, rfl, fun r q => by simp [mulOuter]⟩
  | cons e rest ih =>
    intro m0 hin hcols
    have hrow : e.1.1 < m0.rows := hin e (List.mem_cons_self e rest)
    obtain ⟨h1, h2, h3⟩ := mulInner_spec b e.1.1 e.1.2 e.2 b.cols m0 hrow hcols
    have hunf : mulOuter b (e :: rest) m0 =
        mulOuter b rest (mulInner b e.1.1 e.1.2 e.2 b.cols m0) := by
      rw [mulOuter, List.foldl_cons]
      rfl
    obtain ⟨ih1, ih2, ih3⟩ := ih (mulInner b e.1.1 e.1.2 e.2 b.cols m0)
      (fun e2 he2 => h1 ▸ hin e2 (List.mem_cons_of_mem e he2))
      (h2 ▸ hcols)
    rw [hunf]
    refine ⟨by rw [ih1, h1], by rw [ih2, h2], ?_⟩
    intro r q
    rw [ih3 r q, h3 r q]
    simp only [List.map_cons, List.sum_cons]
    ring

theorem sum_elems_to_range (b : SparseMatrix) (q : Nat) (hq : q < b.cols) (N r : Nat) :
    ∀ (L : List ((Nat × Nat) × Int)), (L.map Prod.fst).Nodup → (∀ e ∈ L, e.1.2 < N) →
      (L.map (fun e =>
        if r = e.1.1 ∧ q < b.cols then e.2 * b.getElement e.1.2 q else 0)).sum =
        ∑ c ∈ Finset.range N, ((findVal (r, c) L).getD 0) * b.getElement c q := by
  intro L
  induction L with
  | nil =>
    intro _ _
    simp [findVal]
  | cons e rest ih =>
    intro hnd hlt
    have hnd2 : e.1 ∉ rest.map Prod.fst ∧ (rest.map Prod.fst).Nodup := by
      rw [List.map_cons, List.nodup_cons] at hnd
      exact hnd
    have hc0 : e.1.2 < N := hlt e (List.mem_cons_self e rest)
    rw [List.map_cons, List.sum_cons,
      ih hnd2.2 (fun e2 he2 => hlt e2 (List.mem_cons_of_mem e he2))]
    by_cases hr : r = e.1.1
    · rw [if_pos ⟨hr, hq⟩]
      have hmem : e.1.2 ∈ Finset.range N := Finset.mem_range.mpr hc0
      rw [← Finset.add_sum_erase _
        (fun c => ((findVal (r, c) (e :: rest)).getD 0) * b.getElement c q) hmem]
      rw [← Finset.add_sum_erase _
        (fun c => ((findVal (r, c) rest).getD 0) * b.getElement c q) hmem]
      have hnone : findVal (r, e.1.2) rest = none := by
        apply findVal_eq_none_of_not_mem
        rw [hr]
        exact hnd2.1
      have hF0 : ((findVal (r, e.1.2) (e :: rest)).getD 0) = e.2 := by
        rw [findVal_cons, if_pos (by rw [hr] : (r, e.1.2) = e.1)]
        rfl
      have hcong : ∑ c ∈ (Finset.range N).erase e.1.2,
            ((findVal (r, c) (e :: rest)).getD 0) * b.getElement c q
          = ∑ c ∈ (Finset.range N).erase e.1.2,
            ((findVal (r, c) rest).getD 0) * b.getElement c q := by
        apply Finset.sum_congr rfl
        intro c hcmem
        have hcne : c ≠ e.1.2 := (Finset.mem_erase.mp hcmem).1
        rw [findVal_cons, if_neg]
        intro h2
        exact hcne (congrArg Prod.snd h2)
      rw [hF0, hnone, hcong]
      simp
    · rw [if_neg (fun h2 => hr h2.1)]
      have hcong : ∀ c, findVal (r, c) (e :: rest) = findVal (r, c) rest := by
        intro c
        rw [findVal_cons, if_neg]
        intro h2
        exact hr (congrArg Prod.fst h2)
      simp only [hcong, zero_add]

theorem multiply_spec (a b : SparseMatrix) (hA : WF a) (hcb : a.cols = b.rows) :
    ∃ m, SparseMatrix.multiply a b = .ok m ∧ m.rows = a.rows ∧ m.cols = b.cols ∧
      ∀ r k, r < a.rows → k < b.cols →
        m.getElement r k = ∑ c ∈ Finset.range a.cols, a.getElement r c * b.getElement c k := by
  rw [multiply_eq_ok a b hcb]
  refine ⟨_, rfl, ?_⟩
  obtain ⟨h1, h2, h3⟩ := mulOuter_spec b a.elements ⟨a.rows, b.cols, []⟩
    (fun e he => (hA.1 e he).1) (le_refl _)
  refine ⟨h1, h2, ?_⟩
  intro r k hr hk
  rw [h3 r k]
  have hempty : (⟨a.rows, b.cols, []⟩ : SparseMatrix).getElement r k = 0 := rfl
  rw [hempty, zero_add,
    sum_elems_to_range b k hk a.cols r a.elements hA.2 (fun e he => (hA.1 e he).2)]
  apply Finset.sum_congr rfl
  intro c _
  rfl

/-! ## Lemmas: the parse loop -/

theorem elemLoop_cons (path : String) (i : Nat) (l : Str) (rest : List Str) (m : SparseMatrix) :
    elemLoop path i (l :: rest) m =
      if l.isEmpty then elemLoop path (i + 1) rest m
      else
        match elemCapture l with
        | some t => elemLoop path (i + 1) rest (m.setElement t.1 t.2.1 t.2.2)
        | none => .error (.badLine (i + 1) l path) := rfl

theorem elemLoop_first_bad (path : String) :
    ∀ (pre : List Str) (i : Nat) (m : SparseMatrix) (bad : Str) (rest : List Str),
      (∀ l ∈ pre, l = [] ∨ elemCapture l ≠ none) → bad ≠ [] → elemCapture bad = none →
      elemLoop path i (pre ++ bad :: rest) m = .error (.badLine (i + pre.length + 1) bad path) := by
  intro pre
  induction pre with
  | nil =>
    intro i m bad rest _ hbad hmiss
    obtain ⟨ch, bt, rfl⟩ := List.exists_cons_of_ne_nil hbad
    simp [elemLoop_cons, hmiss]
  | cons l pre ih =>
    intro i m bad rest hpre hbad hmiss
    have hnum : (i + 1) + pre.length + 1 = i + (l :: pre).length + 1 := by
      simp [List.length_cons]
      omega
    rcases hpre l (List.mem_cons_self l pre) with hl | hl
    · subst hl
      rw [List.cons_append, elemLoop_cons]
      simp only [List.isEmpty_nil, if_true]
      rw [ih (i + 1) m bad rest (fun l2 hl2 => hpre l2 (List.mem_cons_of_mem _ hl2)) hbad hmiss,
        hnum]
    · rw [List.cons_append, elemLoop_cons]
      by_cases hle : l.isEmpty
      · rw [if_pos hle]
        rw [ih (i + 1) m bad rest (fun l2 hl2 => hpre l2 (List.mem_cons_of_mem _ hl2)) hbad hmiss,
          hnum]
      · rw [if_neg hle]
        cases hcap : elemCapture l with
        | none => exact absurd hcap hl
        | some t =>
          exact (ih (i + 1) (m.setElement t.1 t.2.1 t.2.2) bad rest
            (fun l2 hl2 => hpre l2 (List.mem_cons_of_mem _ hl2)) hbad hmiss).trans
            (by rw [hnum])

theorem elemLoop_not_badHeader (path : String) :
    ∀ (ls : List Str) (i : Nat) (m : SparseMatrix),
      elemLoop path i ls m ≠ .error (.badHeader path) := by
  intro ls
  induction ls with
  | nil =>
    intro i m h
    simp [elemLoop] at h
  | cons l rest ih =>
    intro i m h
    rw [elemLoop_cons] at h
    by_cases hle : l.isEmpty
    · rw [if_pos hle] at h
      exact ih _ _ h
    · rw [if_neg hle] at h
      cases hcap : elemCapture l with
      | some t =>
        rw [hcap] at h
        exact ih _ _ h
      | none =>
        rw [hcap] at h
        simp at h

theorem parseLines_cons (path : String) (l0 l1 : Str) (rest : List Str) :
    parseLines path (l0 :: l1 :: rest) =
      match headerNat rowsTag l0, headerNat colsTag l1 with
      | some totalRows, some totalCols => elemLoop path 2 rest ⟨totalRows, totalCols, []⟩
      | _, _ => .error (.badHeader path) := rfl

theorem parseLines_badHeader_iff (path : String) (l0 l1 : Str) (rest : List Str) :
    parseLines path (l0 :: l1 :: rest) = .error (.badHeader path) ↔
      (headerNat rowsTag l0 = none ∨ headerNat colsTag l1 = none) := by
  rw [parseLines_cons]
  cases h0 : headerNat rowsTag l0 with
  | none => simp [h0]
  | some totalRows =>
    cases h1 : headerNat colsTag l1 with
    | none => simp [h1]
    | some totalCols =>
      simp only [h0, h1]
      constructor
      · intro h
        exact absurd h (elemLoop_not_badHeader path rest 2 ⟨totalRows, totalCols, []⟩)
      · intro h
        simp at h

/-! ## Lemmas: the store-passing arithmetic -/

theorem get?_set_ne {α : Type} (l : List α) (i j : Nat) (a : α) (h : i ≠ j) :
    (l.set i a)[j]? = l[j]? := by
  induction l generalizing i j with
  | nil => simp
  | cons x xs ih =>
    cases i with
    | zero =>
      cases j with
      | zero => omega
      | succ j2 => simp
    | succ i2 =>
      cases j with
      | zero => simp
      | succ j2 =>
        simp only [List.set_cons_succ, List.getElem?_cons_succ]
        exact ih i2 j2 (by omega)

theorem get?_append_left {α : Type} (l1 l2 : List α) (n : Nat) (h : n < l1.length) :
    (l1 ++ l2)[n]? = l1[n]? := by
  rw [List.getElem?_append, if_pos h]

theorem storeSetElement_get_ne (s : Store) (n r c : Nat) (v : Int) (k : Nat) (h : k ≠ n) :
    (storeSetElement s n r c v)[k]? = s[k]? := by
  rw [storeSetElement]
  cases hn : s[n]? with
  | none => rfl
  | some m => exact get?_set_ne s n k _ (fun h2 => h h2.symm)

theorem foldl_preserves_get {α : Type} (n : Nat) (f : Store → α → Store)
    (hf : ∀ st (e : α) (k : Nat), k ≠ n → (f st e)[k]? = st[k]?) (L : List α) :
    ∀ (s : Store) (k : Nat), k ≠ n → (L.foldl f s)[k]? = s[k]? := by
  induction L with
  | nil =>
    intro s k _
    rfl
  | cons e rest ih =>
    intro s k hk
    rw [List.foldl_cons, ih (f s e) k hk, hf s e k hk]

theorem addS_frame (s : Store) (i j k : Nat) (hk : k < s.length) :
    (addS s i j).1[k]? = s[k]? := by
  have hkn : k ≠ s.length := by omega
  cases hi : s[i]? with
  | none => simp [addS, hi]
  | some a =>
    cases hj : s[j]? with
    | none => simp [addS, hi, hj]
    | some b =>
      by_cases hdim : a.rows ≠ b.rows ∨ a.cols ≠ b.cols
      · simp [addS, hi, hj, hdim]
      · simp only [addS, hi, hj, if_neg hdim]
        rw [foldl_preserves_get s.length _
            (fun st e k2 hk2 => storeSetElement_get_ne st s.length _ _ _ k2 hk2) b.elements _ k hkn,
          foldl_preserves_get s.length _
            (fun st e k2 hk2 => storeSetElement_get_ne st s.length _ _ _ k2 hk2) a.elements _ k hkn,
          get?_append_left s _ k hk]

theorem subtractS_frame (s : Store) (i j k : Nat) (hk : k < s.length) :
    (subtractS s i j).1[k]? = s[k]? := by
  have hkn : k ≠ s.length := by omega
  cases hi : s[i]? with
  | none => simp [subtractS, hi]
  | some a =>
    cases hj : s[j]? with
    | none => simp [subtractS, hi, hj]
    | some b =>
      by_cases hdim : a.rows ≠ b.rows ∨ a.cols ≠ b.cols
      · simp [subtractS, hi, hj, hdim]
      · simp only [subtractS, hi, hj, if_neg hdim]
        rw [foldl_preserves_get s.length _
            (fun st e k2 hk2 => storeSetElement_get_ne st s.length _ _ _ k2 hk2) b.elements _ k hkn,
          foldl_preserves_get s.length _
            (fun st e k2 hk2 => storeSetElement_get_ne st s.length _ _ _ k2 hk2) a.elements _ k hkn,
          get?_append_left s _ k hk]

theorem multiplyS_frame (s : Store) (i j k : Nat) (hk : k < s.length) :
    (multiplyS s i j).1[k]? = s[k]? := by
  have hkn : k ≠ s.length := by omega
  cases hi : s[i]? with
  | none => simp [multiplyS, hi]
  | some a =>
    cases hj : s[j]? with
    | none => simp [multiplyS, hi, hj]
    | some b =>
      by_cases hdim : a.cols ≠ b.rows
      · simp [multiplyS, hi, hj, hdim]
      · simp only [multiplyS, hi, hj, if_neg hdim]
        rw [foldl_preserves_get s.length _ ?_ a.elements _ k hkn, get?_append_left s _ k hk]
        intro st e k2 hk2
        apply foldl_preserves_get s.length _ ?_ (List.range b.cols) st k2 hk2
        intro st2 k3 k4 hk4
        show (if b.getElement e.1.2 k3 ≠ 0 then
            storeSetElement st2 s.length e.1.1 k3
              (storeGetElement st2 s.length e.1.1 k3 + e.2 * b.getElement e.1.2 k3)
          else st2)[k4]? = st2[k4]?
        split
        · exact storeSetElement_get_ne st2 s.length _ _ _ k4 hk4
        · rfl

theorem addS_ok_index (s : Store) (i j n : Nat) (h : (addS s i j).2 = .ok n) :
    n = s.length := by
  cases hi : s[i]? with
  | none => simp [addS, hi] at h
  | some a =>
    cases hj : s[j]? with
    | none => simp [addS, hi, hj] at h
    | some b =>
      by_cases hdim : a.rows ≠ b.rows ∨ a.cols ≠ b.cols
      · simp [addS, hi, hj, hdim] at h
      · simp only [addS, hi, hj, if_neg hdim] at h
        simp at h
        omega

theorem subtractS_ok_index (s : Store) (i j n : Nat) (h : (subtractS s i j).2 = .ok n) :
    n = s.length := by
  cases hi : s[i]? with
  | none => simp [subtractS, hi] at h
  | some a =>
    cases hj : s[j]? with
    | none => simp [subtractS, hi, hj] at h
    | some b =>
      by_cases hdim : a.rows ≠ b.rows ∨ a.cols ≠ b.cols
      · simp [subtractS, hi, hj, hdim] at h
      · simp only [subtractS, hi, hj, if_neg hdim] at h
        simp at h
        omega

theorem multiplyS_ok_index (s : Store) (i j n : Nat) (h : (multiplyS s i j).2 = .ok n) :
    n = s.length := by
  cases hi : s[i]? with
  | none => simp [multiplyS, hi] at h
  | some a =>
    cases hj : s[j]? with
    | none => simp [multiplyS, hi, hj] at h
    | some b =>
      by_cases hdim : a.cols ≠ b.rows
      · simp [multiplyS, hi, hj, hdim] at h
      · simp only [multiplyS, hi, hj, if_neg hdim] at h
        simp at h
        omega

/-! ## Lemmas: serialization and re-parsing (round trip) -/

/-- One serialized element line, `(${row}, ${col}, ${value})`. -/
def renderElem (r c : Nat) (v : Int) : Str :=
  '(' :: natToChars r ++ ',' :: ' ' :: natToChars c ++ ',' :: ' ' :: intToChars v ++ [')']

def elemLine (e : (Nat × Nat) × Int) : Str := renderElem e.1.1 e.1.2 e.2

/-- The lines of the serialized form, in order. -/
def allLines (m : SparseMatrix) : List Str :=
  (rowsTag ++ natToChars m.rows) :: (colsTag ++ natToChars m.cols) :: m.elements.map elemLine

/-- Join lines with a single newline between them. -/
def joinLines : List Str → Str
  | [] => []
  | [l] => l
  | l :: ls => l ++ '\n' :: joinLines ls

theorem joinLines_cons_cons (l l2 : Str) (rest : List Str) :
    joinLines (l :: l2 :: rest) = l ++ '\n' :: joinLines (l2 :: rest) := rfl

theorem not_isWS_of_isDig (ch : Char) (h : isDig ch = true) : isWS ch = false := by
  by_contra h2
  have h3 : isWS ch = true := by
    cases h4 : isWS ch with
    | true => rfl
    | false => exact absurd h4 h2
  simp only [isWS, Bool.or_eq_true, decide_eq_true_eq] at h3
  rcases h3 with ((rfl | rfl) | rfl) | rfl <;> exact absurd h (by decide)

theorem takeWhile_append_not (p : Char → Bool) :
    ∀ (A : Str) (x : Char) (B : Str), (∀ a ∈ A, p a = true) → p x = false →
      (A ++ x :: B).takeWhile p = A ∧ (A ++ x :: B).dropWhile p = x :: B := by
  intro A
  induction A with
  | nil =>
    intro x B _ hx
    simp [List.takeWhile_cons, List.dropWhile_cons, hx]
  | cons a as ih =>
    intro x B hall hx
    have ha : p a = true := hall a (List.mem_cons_self a as)
    obtain ⟨h1, h2⟩ := ih x B (fun a2 h => hall a2 (List.mem_cons_of_mem _ h)) hx
    simp [List.takeWhile_cons, List.dropWhile_cons, ha, h1, h2]

theorem takeWhile_all (p : Char → Bool) :
    ∀ (l : Str), (∀ a ∈ l, p a = true) → l.takeWhile p = l := by
  intro l
  induction l with
  | nil => intro _; rfl
  | cons a as ih =>
    intro hall
    simp [List.takeWhile_cons, hall a (List.mem_cons_self a as),
      ih (fun a2 h => hall a2 (List.mem_cons_of_mem _ h))]

theorem munchDigits_render (n : Nat) (x : Char) (B : Str) (hx : isDig x = false) :
    munchDigits (natToChars n ++ x :: B) = some (n, x :: B) := by
  obtain ⟨h1, h2⟩ := takeWhile_append_not isDig (natToChars n) x B (natToChars_all_dig n) hx
  obtain ⟨d, ds, hds⟩ := List.exists_cons_of_ne_nil (natToChars_ne_nil n)
  rw [munchDigits, h1, h2, hds]
  show some (parseDigits (d :: ds), x :: B) = some (n, x :: B)
  rw [← hds, parseDigits_natToChars]

theorem dropWhile_isWS_natToChars (n : Nat) (X : Str) :
    (natToChars n ++ X).dropWhile isWS = natToChars n ++ X := by
  obtain ⟨d, ds, hds⟩ := List.exists_cons_of_ne_nil (natToChars_ne_nil n)
  have hd : isDig d = true := natToChars_all_dig n d (by rw [hds]; exact List.mem_cons_self d ds)
  rw [hds, List.cons_append, List.dropWhile_cons, if_neg]
  simp [not_isWS_of_isDig d hd]

theorem dropWhile_isWS_intToChars (v : Int) (X : Str) :
    (intToChars v ++ X).dropWhile isWS = intToChars v ++ X := by
  rw [intToChars]
  split
  · rw [List.cons_append, List.dropWhile_cons, if_neg]
    simp
    decide
  · exact dropWhile_isWS_natToChars _ X

theorem tryElemHere_open (A : Str) :
    tryElemHere ('(' :: A) =
      (match munchDigits A with
       | some (a2, ',' :: r3) =>
         (match munchDigits (r3.dropWhile isWS) with
          | some (b2, ',' :: r6) =>
            (match r6.dropWhile isWS with
             | '-' :: r8 =>
               (match munchDigits r8 with
                | some (v2, ')' :: _) => some (a2, b2, -(v2 : Int))
                | _ => none)
             | r7 =>
               (match munchDigits r7 with
                | some (v2, ')' :: _) => some (a2, b2, (v2 : Int))
                | _ => none))
          | _ => none)
       | _ => none) := rfl

theorem tryElemHere_render (r c : Nat) (v : Int) :
    tryElemHere (renderElem r c v) = some (r, c, v) := by
  have hshape : renderElem r c v =
      '(' :: (natToChars r ++ ',' ::
        (' ' :: (natToChars c ++ ',' :: (' ' :: (intToChars v ++ [')']))))) := by
    rw [renderElem]
    simp
  rw [hshape, tryElemHere_open,
    munchDigits_render r ',' (' ' :: (natToChars c ++ ',' :: (' ' :: (intToChars v ++ [')']))))
      (by decide)]
  show (match munchDigits
        ((' ' :: (natToChars c ++ ',' :: (' ' :: (intToChars v ++ [')'])))).dropWhile isWS) with
      | some (b2, ',' :: r6) =>
        (match r6.dropWhile isWS with
         | '-' :: r8 =>
           (match munchDigits r8 with
            | some (v2, ')' :: _) => some (r, b2, -(v2 : Int))
            | _ => none)
         | r7 =>
           (match munchDigits r7 with
            | some (v2, ')' :: _) => some (r, b2, (v2 : Int))
            | _ => none))
      | _ => none) = some (r, c, v)
  have hdrop1 : (' ' :: (natToChars c ++ ',' :: (' ' :: (intToChars v ++ [')'])))).dropWhile isWS
      = natToChars c ++ ',' :: (' ' :: (intToChars v ++ [')'])) := by
    rw [List.dropWhile_cons, if_pos (by decide)]
    exact dropWhile_isWS_natToChars c _
  rw [hdrop1, munchDigits_render c ',' (' ' :: (intToChars v ++ [')'])) (by decide)]
  show (match (' ' :: (intToChars v ++ [')'])).dropWhile isWS with
      | '-' :: r8 =>
        (match munchDigits r8 with
         | some (v2, ')' :: _) => some (r, c, -(v2 : Int))
         | _ => none)
      | r7 =>
        (match munchDigits r7 with
         | some (v2, ')' :: _) => some (r, c, (v2 : Int))
         | _ => none)) = some (r, c, v)
  have hdrop2 : (' ' :: (intToChars v ++ [')'])).dropWhile isWS = intToChars v ++ [')'] := by
    rw [List.dropWhile_cons, if_pos (by decide)]
    exact dropWhile_isWS_intToChars v _
  rw [hdrop2]
  by_cases hv : v < 0
  · have hi : intToChars v = '-' :: natToChars v.natAbs := by rw [intToChars, if_pos hv]
    rw [hi, List.cons_append]
    show (match munchDigits (natToChars v.natAbs ++ [')']) with
        | some (v2, ')' :: _) => some (r, c, -(v2 : Int))
        | _ => none) = some (r, c, v)
    rw [show natToChars v.natAbs ++ [')'] = natToChars v.natAbs ++ ')' :: [] from rfl,
      munchDigits_render v.natAbs ')' [] (by decide)]
    show some (r, c, -((v.natAbs : Int))) = some (r, c, v)
    have h3 : -((v.natAbs : Int)) = v := by omega
    rw [h3]
  · have hi : intToChars v = natToChars v.toNat := by rw [intToChars, if_neg hv]
    rw [hi]
    obtain ⟨d, ds, hds⟩ := List.exists_cons_of_ne_nil (natToChars_ne_nil v.toNat)
    have hd : isDig d = true :=
      natToChars_all_dig v.toNat d (by rw [hds]; exact List.mem_cons_self d ds)
    have hdn : d ≠ '-' := by
      intro h4
      rw [h4] at hd
      exact absurd hd (by decide)
    rw [hds, List.cons_append]
    split
    · next r8 heq =>
      rw [List.cons.injEq] at heq
      exact absurd heq.1 hdn
    · rw [← List.cons_append, ← hds,
        show natToChars v.toNat ++ [')'] = natToChars v.toNat ++ ')' :: [] from rfl,
        munchDigits_render v.toNat ')' [] (by decide)]
      show some (r, c, ((v.toNat : Int))) = some (r, c, v)
      have h3 : ((v.toNat : Int)) = v := Int.toNat_of_nonneg (by omega)
      rw [h3]

theorem elemCapture_cons (ch : Char) (rest : Str) :
    elemCapture (ch :: rest) =
      match tryElemHere (ch :: rest) with
      | some t => some t
      | none => elemCapture rest := rfl

theorem renderElem_shape (r c : Nat) (v : Int) :
    renderElem r c v =
      '(' :: (natToChars r ++ ',' ::
        (' ' :: (natToChars c ++ ',' :: (' ' :: (intToChars v ++ [')']))))) := by
  rw [renderElem]
  simp

theorem elemCapture_render (r c : Nat) (v : Int) :
    elemCapture (renderElem r c v) = some (r, c, v) := by
  rw [renderElem_shape, elemCapture_cons, ← renderElem_shape, tryElemHere_render]

theorem stripTag_append : ∀ (tag l : Str), stripTag tag (tag ++ l) = some l := by
  intro tag
  induction tag with
  | nil => intro l; rfl
  | cons t ts ih =>
    intro l
    simp [stripTag, ih]

theorem tryHeaderHere_render (tag : Str) (n : Nat) :
    tryHeaderHere tag (tag ++ natToChars n) = some (natToChars n) := by
  rw [tryHeaderHere, stripTag_append]
  show (match (natToChars n).takeWhile isDig with
    | [] => none
    | ds => some ds) = some (natToChars n)
  obtain ⟨d, ds, hds⟩ := List.exists_cons_of_ne_nil (natToChars_ne_nil n)
  rw [takeWhile_all isDig (natToChars n) (natToChars_all_dig n), hds]

theorem headerCapture_cons (tag : Str) (ch : Char) (rest : Str) :
    headerCapture tag (ch :: rest) =
      match tryHeaderHere tag (ch :: rest) with
      | some ds => some ds
      | none => headerCapture tag rest := rfl

theorem rowsTag_shape (n : Nat) :
    rowsTag ++ natToChars n = 'r' :: (['o', 'w', 's', '='] ++ natToChars n) := rfl

theorem colsTag_shape (n : Nat) :
    colsTag ++ natToChars n = 'c' :: (['o', 'l', 's', '='] ++ natToChars n) := rfl

theorem headerNat_rowsTag_render (n : Nat) :
    headerNat rowsTag (rowsTag ++ natToChars n) = some n := by
  rw [headerNat, rowsTag_shape, headerCapture_cons, ← rowsTag_shape, tryHeaderHere_render]
  simp [parseDigits_natToChars]

theorem headerNat_colsTag_render (n : Nat) :
    headerNat colsTag (colsTag ++ natToChars n) = some n := by
  rw [headerNat, colsTag_shape, headerCapture_cons, ← colsTag_shape, tryHeaderHere_render]
  simp [parseDigits_natToChars]

theorem not_mem_natToChars_of_not_dig (ch : Char) (h : isDig ch = false) (n : Nat) :
    ch ∉ natToChars n := by
  intro h2
  rw [natToChars_all_dig n ch h2] at h
  exact Bool.noConfusion h

theorem not_mem_intToChars (ch : Char) (hdig : isDig ch = false) (hdash : ch ≠ '-') (v : Int) :
    ch ∉ intToChars v := by
  rw [intToChars]
  split
  · intro h2
    rcases List.mem_cons.mp h2 with h3 | h3
    · exact hdash h3
    · exact not_mem_natToChars_of_not_dig ch hdig _ h3
  · exact not_mem_natToChars_of_not_dig ch hdig _

theorem newline_not_mem_rows_line (n : Nat) : '\n' ∉ rowsTag ++ natToChars n := by
  intro h
  rcases List.mem_append.mp h with h2 | h2
  · exact absurd h2 (by decide)
  · exact not_mem_natToChars_of_not_dig '\n' (by decide) n h2

theorem newline_not_mem_cols_line (n : Nat) : '\n' ∉ colsTag ++ natToChars n := by
  intro h
  rcases List.mem_append.mp h with h2 | h2
  · exact absurd h2 (by decide)
  · exact not_mem_natToChars_of_not_dig '\n' (by decide) n h2

theorem newline_not_mem_elemLine (e : (Nat × Nat) × Int) : '\n' ∉ elemLine e := by
  intro h
  rw [elemLine, renderElem_shape] at h
  rcases List.mem_cons.mp h with h2 | h2
  · exact absurd h2 (by decide)
  rcases List.mem_append.mp h2 with h3 | h3
  · exact not_mem_natToChars_of_not_dig '\n' (by decide) _ h3
  rcases List.mem_cons.mp h3 with h4 | h4
  · exact absurd h4 (by decide)
  rcases List.mem_cons.mp h4 with h5 | h5
  · exact absurd h5 (by decide)
  rcases List.mem_append.mp h5 with h6 | h6
  · exact not_mem_natToChars_of_not_dig '\n' (by decide) _ h6
  rcases List.mem_cons.mp h6 with h7 | h7
  · exact absurd h7 (by decide)
  rcases List.mem_cons.mp h7 with h8 | h8
  · exact absurd h8 (by decide)
  rcases List.mem_append.mp h8 with h9 | h9
  · exact not_mem_intToChars '\n' (by decide) (by decide) _ h9
  · rcases List.mem_singleton.mp h9 with h10
    exact absurd h10 (by decide)

/-- A line that starts and ends with a non-whitespace character. -/
def goodLine (l : Str) : Prop :=
  (∃ x mid, l = x :: mid ∧ isWS x = false) ∧
  (∃ y mid2, l.reverse = y :: mid2 ∧ isWS y = false)

theorem reverse_natToChars_head (n : Nat) :
    ∃ d ds, (natToChars n).reverse = d :: ds ∧ isDig d = true := by
  have hne : (natToChars n).reverse ≠ [] := by
    simp [natToChars_ne_nil n]
  obtain ⟨d, ds, hds⟩ := List.exists_cons_of_ne_nil hne
  refine ⟨d, ds, hds, ?_⟩
  have hmem : d ∈ (natToChars n).reverse := by
    rw [hds]
    exact List.mem_cons_self d ds
  exact natToChars_all_dig n d (List.mem_reverse.mp hmem)

theorem goodLine_rows_line (n : Nat) : goodLine (rowsTag ++ natToChars n) := by
  constructor
  · exact ⟨'r', ['o', 'w', 's', '='] ++ natToChars n, rowsTag_shape n, by decide⟩
  · obtain ⟨d, ds, hds, hdig⟩ := reverse_natToChars_head n
    refine ⟨d, ds ++ rowsTag.reverse, ?_, not_isWS_of_isDig d hdig⟩
    rw [List.reverse_append, hds, List.cons_append]

theorem goodLine_cols_line (n : Nat) : goodLine (colsTag ++ natToChars n) := by
  constructor
  · exact ⟨'c', ['o', 'l', 's', '='] ++ natToChars n, colsTag_shape n, by decide⟩
  · obtain ⟨d, ds, hds, hdig⟩ := reverse_natToChars_head n
    refine ⟨d, ds ++ colsTag.reverse, ?_, not_isWS_of_isDig d hdig⟩
    rw [List.reverse_append, hds, List.cons_append]

theorem goodLine_elemLine (e : (Nat × Nat) × Int) : goodLine (elemLine e) := by
  constructor
  · exact ⟨'(', _, by rw [elemLine, renderElem_shape], by decide⟩
  · refine ⟨')', ('(' :: natToChars e.1.1 ++ ',' :: ' ' :: natToChars e.1.2
      ++ ',' :: ' ' :: intToChars e.2).reverse, ?_, by decide⟩
    have hsplit : elemLine e = ('(' :: natToChars e.1.1 ++ ',' :: ' ' :: natToChars e.1.2
        ++ ',' :: ' ' :: intToChars e.2) ++ [')'] := by
      rw [elemLine, renderElem]
    rw [hsplit, List.reverse_append]
    rfl

theorem trimChars_id_of_goodLine (l : Str) (h : goodLine l) : trimChars l = l := by
  obtain ⟨⟨x, mid, hx1, hx2⟩, ⟨y, mid2, hy1, hy2⟩⟩ := h
  rw [trimChars]
  have h1 : l.dropWhile isWS = l := by
    rw [hx1, List.dropWhile_cons, if_neg]
    simp [hx2]
  have h2 : l.reverse.dropWhile isWS = l.reverse := by
    rw [hy1, List.dropWhile_cons, if_neg]
    simp [hy2]
  rw [h1, h2, List.reverse_reverse]

theorem trimChars_append_newline (l : Str) (h : goodLine l) : trimChars (l ++ ['\n']) = l := by
  obtain ⟨⟨x, mid, hx1, hx2⟩, ⟨y, mid2, hy1, hy2⟩⟩ := h
  rw [trimChars]
  have h1 : (l ++ ['\n']).dropWhile isWS = l ++ ['\n'] := by
    rw [hx1, List.cons_append, List.dropWhile_cons, if_neg]
    simp [hx2]
  have h2 : (l ++ ['\n']).reverse = '\n' :: l.reverse := by
    rw [List.reverse_append]
    rfl
  rw [h1, h2, List.dropWhile_cons, if_pos (by decide)]
  rw [hy1, List.dropWhile_cons, if_neg]
  · rw [← hy1, List.reverse_reverse]
  · simp [hy2]

theorem goodLine_joinLines (ls : List Str) (hne : ls ≠ []) (h : ∀ l ∈ ls, goodLine l) :
    goodLine (joinLines ls) := by
  induction ls with
  | nil => exact absurd rfl hne
  | cons l rest ih =>
    cases rest with
    | nil => exact h l (List.mem_cons_self l [])
    | cons l2 rest2 =>
      obtain ⟨⟨x, mid, hx1, hx2⟩, _⟩ := h l (List.mem_cons_self l (l2 :: rest2))
      obtain ⟨_, ⟨y, mid2, hy1, hy2⟩⟩ := ih (by simp)
        (fun l3 h3 => h l3 (List.mem_cons_of_mem _ h3))
      constructor
      · refine ⟨x, mid ++ '\n' :: joinLines (l2 :: rest2), ?_, hx2⟩
        rw [joinLines_cons_cons, hx1, List.cons_append]
      · refine ⟨y, mid2 ++ '\n' :: l.reverse, ?_, hy2⟩
        rw [joinLines_cons_cons,
          show l ++ '\n' :: joinLines (l2 :: rest2) = (l ++ ['\n']) ++ joinLines (l2 :: rest2)
            by simp,
          List.reverse_append, hy1, List.reverse_append, List.cons_append]
        rfl

theorem splitOnChar_not_mem (sep : Char) :
    ∀ (l : Str), sep ∉ l → splitOnChar sep l = [l] := by
  intro l
  induction l with
  | nil => intro _; rfl
  | cons ch rest ih =>
    intro h
    have hch : ¬ ch = sep := fun h2 => h (h2 ▸ List.mem_cons_self ch rest)
    have hrest : sep ∉ rest := fun h2 => h (List.mem_cons_of_mem _ h2)
    rw [splitOnChar, if_neg hch, ih hrest]

theorem splitOnChar_append_sep (sep : Char) :
    ∀ (A B : Str), sep ∉ A → splitOnChar sep (A ++ sep :: B) = A :: splitOnChar sep B := by
  intro A
  induction A with
  | nil =>
    intro B _
    rw [List.nil_append, splitOnChar, if_pos rfl]
  | cons a as ih =>
    intro B hA
    have ha : ¬ a = sep := fun h2 => hA (h2 ▸ List.mem_cons_self a as)
    have has : sep ∉ as := fun h2 => hA (List.mem_cons_of_mem _ h2)
    rw [List.cons_append, splitOnChar, if_neg ha, ih B has]

theorem splitOnChar_joinLines :
    ∀ (ls : List Str), ls ≠ [] → (∀ l ∈ ls, '\n' ∉ l) →
      splitOnChar '\n' (joinLines ls) = ls := by
  intro ls
  induction ls with
  | nil => intro h _; exact absurd rfl h
  | cons l rest ih =>
    intro _ h
    cases rest with
    | nil => exact splitOnChar_not_mem '\n' l (h l (List.mem_cons_self l []))
    | cons l2 rest2 =>
      rw [joinLines_cons_cons,
        splitOnChar_append_sep '\n' l (joinLines (l2 :: rest2))
          (h l (List.mem_cons_self l (l2 :: rest2))),
        ih (by simp) (fun l3 h3 => h l3 (List.mem_cons_of_mem _ h3))]

theorem toString_fold (L : List ((Nat × Nat) × Int)) :
    ∀ acc : Str,
      L.foldl
        (fun acc e =>
          acc ++ '(' :: natToChars e.1.1 ++ ',' :: ' ' :: natToChars e.1.2
            ++ ',' :: ' ' :: intToChars e.2 ++ [')', '\n'])
        acc
      = acc ++ (L.map (fun e => elemLine e ++ ['\n'])).flatten := by
  induction L with
  | nil =>
    intro acc
    simp
  | cons e rest ih =>
    intro acc
    rw [List.foldl_cons, ih]
    simp [elemLine, renderElem]

theorem join_nl_eq :
    ∀ (ls : List Str), ls ≠ [] →
      (ls.map (fun l => l ++ ['\n'])).flatten = joinLines ls ++ ['\n'] := by
  intro ls
  induction ls with
  | nil => intro h; exact absurd rfl h
  | cons l rest ih =>
    intro _
    cases rest with
    | nil => simp [joinLines]
    | cons l2 rest2 =>
      rw [List.map_cons, List.flatten_cons, ih (by simp), joinLines_cons_cons]
      simp

theorem toString_eq (m : SparseMatrix) :
    SparseMatrix.toString m = trimChars (joinLines (allLines m) ++ ['\n']) := by
  rw [SparseMatrix.toString, toString_fold]
  congr 1
  rw [← join_nl_eq (allLines m) (by simp [allLines]), allLines]
  simp
  rfl

theorem elemLine_not_empty (e : (Nat × Nat) × Int) : (elemLine e).isEmpty = false := by
  rw [elemLine, renderElem_shape]
  rfl

theorem elemCapture_elemLine (e : (Nat × Nat) × Int) :
    elemCapture (elemLine e) = some (e.1.1, e.1.2, e.2) := elemCapture_render e.1.1 e.1.2 e.2

theorem elemLoop_render (path : String) (L : List ((Nat × Nat) × Int)) :
    ∀ (i : Nat) (m0 : SparseMatrix),
      elemLoop path i (L.map elemLine) m0 =
        .ok (L.foldl (fun m e => m.setElement e.1.1 e.1.2 e.2) m0) := by
  induction L with
  | nil =>
    intro i m0
    rfl
  | cons e rest ih =>
    intro i m0
    rw [List.map_cons, elemLoop_cons, if_neg (by simp [elemLine_not_empty]),
      List.foldl_cons]
    rw [elemCapture_elemLine e]
    exact ih (i + 1) (m0.setElement e.1.1 e.1.2 e.2)

theorem roundtrip_eq (m : SparseMatrix) (path : String) (hWF : WF m) :
    parseContent path (SparseMatrix.toString m) = .ok m := by
  have hgood : ∀ l ∈ allLines m, goodLine l := by
    intro l hl
    rw [allLines] at hl
    rcases List.mem_cons.mp hl with rfl | hl2
    · exact goodLine_rows_line m.rows
    rcases List.mem_cons.mp hl2 with rfl | hl3
    · exact goodLine_cols_line m.cols
    obtain ⟨e, _, rfl⟩ := List.mem_map.mp hl3
    exact goodLine_elemLine e
  have hnonl : ∀ l ∈ allLines m, '\n' ∉ l := by
    intro l hl
    rw [allLines] at hl
    rcases List.mem_cons.mp hl with rfl | hl2
    · exact newline_not_mem_rows_line m.rows
    rcases List.mem_cons.mp hl2 with rfl | hl3
    · exact newline_not_mem_cols_line m.cols
    obtain ⟨e, _, rfl⟩ := List.mem_map.mp hl3
    exact newline_not_mem_elemLine e
  rw [toString_eq, parseContent,
    trimChars_append_newline _ (goodLine_joinLines (allLines m) (by simp [allLines]) hgood),
    splitOnChar_joinLines (allLines m) (by simp [allLines]) hnonl]
  have htrim : (allLines m).map trimChars = allLines m := by
    have h2 : ∀ (ls : List Str), (∀ l ∈ ls, trimChars l = l) → ls.map trimChars = ls := by
      intro ls
      induction ls with
      | nil => intro _; rfl
      | cons l rest ih =>
        intro h3
        rw [List.map_cons, h3 l (List.mem_cons_self l rest),
          ih (fun l2 hl2 => h3 l2 (List.mem_cons_of_mem _ hl2))]
    exact h2 (allLines m) (fun l hl => trimChars_id_of_goodLine l (hgood l hl))
  rw [htrim, allLines, parseLines_cons, headerNat_rowsTag_render, headerNat_colsTag_render]
  show elemLoop path 2 (m.elements.map elemLine) ⟨m.rows, m.cols, []⟩ = .ok m
  rw [elemLoop_render,
    foldl_setElement_copy m.elements ⟨m.rows, m.cols, []⟩ hWF.1 (by simp) hWF.2]
  simp

/-! ## The claims -/

/-- C1: `multiply` fails with the `DimensionMismatchError` exactly when
`this.cols` differs from `other.rows`; otherwise it returns a new matrix with
declared dimensions (`this.rows`, `other.cols`) whose `getElement(row, k)` is
the standard product entry `Σ_col this[row][col] * other[col][k]` for every
in-range coordinate.  (The operand satisfies the data-model invariant `WF`.) -/
theorem claim_multiply_correct (a b : SparseMatrix) (hA : WF a) :
    (SparseMatrix.multiply a b = .error (.dimMismatch mulMsg) ↔ a.cols ≠ b.rows) ∧
    (a.cols = b.rows →
      ∃ m, SparseMatrix.multiply a b = .ok m ∧ m.rows = a.rows ∧ m.cols = b.cols ∧
        ∀ r k, r < a.rows → k < b.cols →
          m.getElement r k = ∑ col ∈ Finset.range a.cols,
            a.getElement r col * b.getElement col k) := by
  constructor
  · by_cases h : a.cols = b.rows
    · rw [multiply_eq_ok a b h]
      simp [h]
    · rw [SparseMatrix.multiply, if_pos h]
      exact ⟨fun _ => h, fun _ => rfl⟩
  · intro h
    exact multiply_spec a b hA h

theorem claim_multiply_correct_witness :
    ∃ m, SparseMatrix.multiply ⟨1, 2, [((0, 0), 1), ((0, 1), 2)]⟩
        ⟨2, 1, [((0, 0), 3), ((1, 0), 4)]⟩ = .ok m ∧
      m.rows = 1 ∧ m.cols = 1 ∧
      ∀ r k, r < 1 → k < 1 →
        m.getElement r k = ∑ col ∈ Finset.range 2,
          (⟨1, 2, [((0, 0), 1), ((0, 1), 2)]⟩ : SparseMatrix).getElement r col *
          (⟨2, 1, [((0, 0), 3), ((1, 0), 4)]⟩ : SparseMatrix).getElement col k :=
  (claim_multiply_correct ⟨1, 2, [((0, 0), 1), ((0, 1), 2)]⟩
    ⟨2, 1, [((0, 0), 3), ((1, 0), 4)]⟩ (by decide)).2 rfl

/-- C2: `add` fails with the `DimensionMismatchError` exactly when the declared
dimensions differ; otherwise it returns a new matrix with the same declared
dimensions whose every entry is the sum of the operands' entries (a coordinate
stored in only one operand contributes its value plus 0). -/
theorem claim_add_correct (a b : SparseMatrix) (hA : WF a) (hB : WF b) :
    (SparseMatrix.add a b = .error (.dimMismatch addMsg) ↔
      (a.rows ≠ b.rows ∨ a.cols ≠ b.cols)) ∧
    (a.rows = b.rows → a.cols = b.cols →
      ∃ m, SparseMatrix.add a b = .ok m ∧ m.rows = a.rows ∧ m.cols = a.cols ∧
        ∀ r c, m.getElement r c = a.getElement r c + b.getElement r c) := by
  constructor
  · by_cases h : a.rows ≠ b.rows ∨ a.cols ≠ b.cols
    · rw [SparseMatrix.add, if_pos h]
      exact ⟨fun _ => h, fun _ => rfl⟩
    · push_neg at h
      rw [add_eq_ok a b h.1 h.2]
      simp [h.1, h.2]
  · intro hr hc
    obtain ⟨m, h1, h2, h3, _, h5⟩ := add_spec a b hA hB hr hc
    exact ⟨m, h1, h2, h3, h5⟩

theorem claim_add_correct_witness :
    ∃ m, SparseMatrix.add ⟨2, 2, [((0, 0), 1), ((1, 1), 2)]⟩
        ⟨2, 2, [((0, 0), 3), ((0, 1), 4)]⟩ = .ok m ∧
      m.rows = 2 ∧ m.cols = 2 ∧
      ∀ r c, m.getElement r c =
        (⟨2, 2, [((0, 0), 1), ((1, 1), 2)]⟩ : SparseMatrix).getElement r c +
        (⟨2, 2, [((0, 0), 3), ((0, 1), 4)]⟩ : SparseMatrix).getElement r c :=
  (claim_add_correct ⟨2, 2, [((0, 0), 1), ((1, 1), 2)]⟩
    ⟨2, 2, [((0, 0), 3), ((0, 1), 4)]⟩ (by decide) (by decide)).2 rfl rfl

/-- C3: `setElement` at a row at or beyond the declared `rows` grows `rows` to
`r + 1` (and likewise for columns); every matrix built by a sequence of
`setElement` calls keeps all stored coordinates within the declared
dimensions; and the concrete growth scenario of the spec holds. -/
theorem claim_setElement_growth :
    (∀ (m : SparseMatrix) (r c : Nat) (v : Int), m.rows ≤ r →
      (m.setElement r c v).rows = r + 1) ∧
    (∀ (m : SparseMatrix) (r c : Nat) (v : Int), m.cols ≤ c →
      (m.setElement r c v).cols = c + 1) ∧
    (∀ m, Reachable m → ∀ e ∈ m.elements, e.1.1 < m.rows ∧ e.1.2 < m.cols) ∧
    (((⟨2, 2, []⟩ : SparseMatrix).setElement 5 5 7).rows = 6 ∧
     ((⟨2, 2, []⟩ : SparseMatrix).setElement 5 5 7).cols = 6 ∧
     ((⟨2, 2, []⟩ : SparseMatrix).setElement 5 5 7).getElement 5 5 = 7) := by
  refine ⟨?_, ?_, ?_, by decide, by decide, by decide⟩
  · exact fun m r c v h => SparseMatrix.setElement_rows_of_ge m r c v h
  · exact fun m r c v h => SparseMatrix.setElement_cols_of_ge m r c v h
  · exact fun m h => (WF_of_reachable m h).1

theorem claim_setElement_growth_witness :
    ((⟨2, 2, []⟩ : SparseMatrix).setElement 5 5 7).rows = 6 :=
  claim_setElement_growth.1 ⟨2, 2, []⟩ 5 5 7 (by decide)

/-- C4, counterexample: the header regexes are unanchored, so a first line that
merely contains a `rows=\d+` fragment surrounded by other text — which does not
exactly match `rows=\d+` even after trimming — is accepted, and parsing
succeeds instead of failing with a `FormatError`. -/
theorem claim_header_exact_counterexample :
    parseContent "m.txt" ("xxrows=2yy\ncols=2".data) = .ok ⟨2, 2, []⟩ ∧
    specExactHeader rowsTag (trimChars ("xxrows=2yy".data)) = false := by
  constructor
  · rfl
  · rfl

/-- C4, amended: for a source with at least two lines, parsing fails with the
header `FormatError` exactly when trimmed line 0 contains no `rows=\d+`
fragment or trimmed line 1 contains no `cols=\d+` fragment; extra text around a
fragment is tolerated (the regexes are unanchored), the first fragment
supplying the dimension. -/
theorem claim_header_match_amended (path : String) (content : Str) (l0 l1 : Str)
    (rest : List Str)
    (hsplit : (splitOnChar '\n' content).map trimChars = l0 :: l1 :: rest) :
    parseContent path content = .error (.badHeader path) ↔
      (headerNat rowsTag l0 = none ∨ headerNat colsTag l1 = none) := by
  rw [parseContent, hsplit]
  exact parseLines_badHeader_iff path l0 l1 rest

theorem claim_header_match_amended_witness :
    parseContent "m.txt" ("rows=\ncols=2".data) = .error (.badHeader "m.txt") ↔
      (headerNat rowsTag ("rows=".data) = none ∨
       headerNat colsTag ("cols=2".data) = none) :=
  claim_header_match_amended "m.txt" ("rows=\ncols=2".data)
    ("rows=".data) ("cols=2".data) [] rfl

/-- C5: once the headers match, the first non-blank line (after the two header
lines) in which the element regex finds no match makes parsing fail with a
`FormatError` carrying the 1-based line number and the trimmed offending
content; blank lines before it are skipped.  With no preceding element lines
the failing third line is reported as line 3. -/
theorem claim_element_line_error (path : String) (content : Str) (l0 l1 : Str)
    (pre : List Str) (bad : Str) (rest : List Str)
    (hsplit : (splitOnChar '\n' content).map trimChars = l0 :: l1 :: (pre ++ bad :: rest))
    (h0 : headerNat rowsTag l0 ≠ none) (h1 : headerNat colsTag l1 ≠ none)
    (hpre : ∀ l ∈ pre, l = [] ∨ elemCapture l ≠ none)
    (hbad : bad ≠ []) (hmiss : elemCapture bad = none) :
    parseContent path content = .error (.badLine (pre.length + 3) bad path) := by
  rw [parseContent, hsplit, parseLines_cons]
  obtain ⟨R, hR⟩ := Option.ne_none_iff_exists'.mp h0
  obtain ⟨C, hC⟩ := Option.ne_none_iff_exists'.mp h1
  rw [hR, hC]
  show elemLoop path 2 (pre ++ bad :: rest) ⟨R, C, []⟩ =
    .error (.badLine (pre.length + 3) bad path)
  rw [elemLoop_first_bad path pre 2 ⟨R, C, []⟩ bad rest hpre hbad hmiss]
  have h2 : 2 + pre.length + 1 = pre.length + 3 := by omega
  rw [h2]

theorem claim_element_line_error_witness :
    parseContent "m.txt" ("rows=2\ncols=2\ngarbage".data) =
      .error (.badLine 3 ("garbage".data) "m.txt") :=
  claim_element_line_error "m.txt" ("rows=2\ncols=2\ngarbage".data)
    ("rows=2".data) ("cols=2".data) [] ("garbage".data) [] rfl
    (by decide) (by decide) (by intro l hl; exact absurd hl (List.not_mem_nil l))
    (by decide) rfl

/-- C6: serializing a matrix built by a sequence of `setElement` calls and
re-parsing the text yields a matrix with the same declared `rows` and `cols`
and the same `getElement` at every coordinate. -/
theorem claim_roundtrip (m : SparseMatrix) (path : String) (h : Reachable m) :
    ∃ m2, parseContent path (SparseMatrix.toString m) = .ok m2 ∧
      m2.rows = m.rows ∧ m2.cols = m.cols ∧
      ∀ r c, m2.getElement r c = m.getElement r c :=
  ⟨m, roundtrip_eq m path (WF_of_reachable m h), rfl, rfl, fun _ _ => rfl⟩

theorem claim_roundtrip_witness :
    ∃ m2, parseContent "out.txt"
        (SparseMatrix.toString
          (((⟨2, 3, []⟩ : SparseMatrix).setElement 1 2 (-5)).setElement 0 0 7)) = .ok m2 ∧
      m2.rows = (((⟨2, 3, []⟩ : SparseMatrix).setElement 1 2 (-5)).setElement 0 0 7).rows ∧
      m2.cols = (((⟨2, 3, []⟩ : SparseMatrix).setElement 1 2 (-5)).setElement 0 0 7).cols ∧
      ∀ r c, m2.getElement r c =
        (((⟨2, 3, []⟩ : SparseMatrix).setElement 1 2 (-5)).setElement 0 0 7).getElement r c :=
  claim_roundtrip (((⟨2, 3, []⟩ : SparseMatrix).setElement 1 2 (-5)).setElement 0 0 7)
    "out.txt"
    (Reachable.set _ 0 0 7 (Reachable.set _ 1 2 (-5) (Reachable.new 2 3)))

/-- C7: for operands of equal declared dimensions, `A.add(B).subtract(B)`
succeeds and agrees with `A` at every coordinate stored in `A` or in `B` (in
fact the proof goes through equality at every coordinate). -/
theorem claim_add_subtract_inverse (a b : SparseMatrix) (hA : WF a) (hB : WF b)
    (hr : a.rows = b.rows) (hc : a.cols = b.cols) :
    ∃ ab s, SparseMatrix.add a b = .ok ab ∧ SparseMatrix.subtract ab b = .ok s ∧
      ∀ r c, ((r, c) ∈ a.elements.map Prod.fst ∨ (r, c) ∈ b.elements.map Prod.fst) →
        s.getElement r c = a.getElement r c := by
  obtain ⟨ab, h1, h2, h3, h4, h5⟩ := add_spec a b hA hB hr hc
  obtain ⟨s, g1, g2, g3, g4, g5⟩ := subtract_spec ab b h4 hB
    (by rw [h2, hr]) (by rw [h3, hc])
  refine ⟨ab, s, h1, g1, ?_⟩
  intro r c _
  rw [g5 r c, h5 r c]
  ring

theorem claim_add_subtract_inverse_witness :
    ∃ ab s, SparseMatrix.add ⟨2, 2, [((0, 0), 1), ((1, 1), 2)]⟩
        ⟨2, 2, [((0, 0), 3), ((0, 1), 4)]⟩ = .ok ab ∧
      SparseMatrix.subtract ab ⟨2, 2, [((0, 0), 3), ((0, 1), 4)]⟩ = .ok s ∧
      ∀ r c, ((r, c) ∈ (⟨2, 2, [((0, 0), 1), ((1, 1), 2)]⟩ : SparseMatrix).elements.map
            Prod.fst ∨
          (r, c) ∈ (⟨2, 2, [((0, 0), 3), ((0, 1), 4)]⟩ : SparseMatrix).elements.map
            Prod.fst) →
        s.getElement r c =
          (⟨2, 2, [((0, 0), 1), ((1, 1), 2)]⟩ : SparseMatrix).getElement r c :=
  claim_add_subtract_inverse ⟨2, 2, [((0, 0), 1), ((1, 1), 2)]⟩
    ⟨2, 2, [((0, 0), 3), ((0, 1), 4)]⟩ (by decide) (by decide) rfl rfl

/-- C8: in the store-passing embedding, `add`, `subtract` and `multiply` leave
every pre-existing object (in particular both operands) unchanged, whether they
succeed or fail, and on success the returned reference is the freshly
allocated slot beyond the old store. -/
theorem claim_ops_preserve_operands (s : Store) (i j k : Nat) (hk : k < s.length) :
    ((addS s i j).1[k]? = s[k]? ∧ (subtractS s i j).1[k]? = s[k]? ∧
      (multiplyS s i j).1[k]? = s[k]?) ∧
    ((∀ n, (addS s i j).2 = .ok n → n = s.length) ∧
     (∀ n, (subtractS s i j).2 = .ok n → n = s.length) ∧
     (∀ n, (multiplyS s i j).2 = .ok n → n = s.length)) :=
  ⟨⟨addS_frame s i j k hk, subtractS_frame s i j k hk, multiplyS_frame s i j k hk⟩,
   fun n h => addS_ok_index s i j n h,
   fun n h => subtractS_ok_index s i j n h,
   fun n h => multiplyS_ok_index s i j n h⟩

theorem claim_ops_preserve_operands_witness :
    ((addS [⟨1, 1, [((0, 0), 2)]⟩, ⟨1, 1, [((0, 0), 3)]⟩] 0 1).1[0]? =
        [(⟨1, 1, [((0, 0), 2)]⟩ : SparseMatrix), ⟨1, 1, [((0, 0), 3)]⟩][0]? ∧
      (subtractS [⟨1, 1, [((0, 0), 2)]⟩, ⟨1, 1, [((0, 0), 3)]⟩] 0 1).1[0]? =
        [(⟨1, 1, [((0, 0), 2)]⟩ : SparseMatrix), ⟨1, 1, [((0, 0), 3)]⟩][0]? ∧
      (multiplyS [⟨1, 1, [((0, 0), 2)]⟩, ⟨1, 1, [((0, 0), 3)]⟩] 0 1).1[0]? =
        [(⟨1, 1, [((0, 0), 2)]⟩ : SparseMatrix), ⟨1, 1, [((0, 0), 3)]⟩][0]?) ∧
    ((∀ n, (addS [⟨1, 1, [((0, 0), 2)]⟩, ⟨1, 1, [((0, 0), 3)]⟩] 0 1).2 = .ok n →
        n = [(⟨1, 1, [((0, 0), 2)]⟩ : SparseMatrix), ⟨1, 1, [((0, 0), 3)]⟩].length) ∧
     (∀ n, (subtractS [⟨1, 1, [((0, 0), 2)]⟩, ⟨1, 1, [((0, 0), 3)]⟩] 0 1).2 = .ok n →
        n = [(⟨1, 1, [((0, 0), 2)]⟩ : SparseMatrix), ⟨1, 1, [((0, 0), 3)]⟩].length) ∧
     (∀ n, (multiplyS [⟨1, 1, [((0, 0), 2)]⟩, ⟨1, 1, [((0, 0), 3)]⟩] 0 1).2 = .ok n →
        n = [(⟨1, 1, [((0, 0), 2)]⟩ : SparseMatrix), ⟨1, 1, [((0, 0), 3)]⟩].length)) :=
  claim_ops_preserve_operands [⟨1, 1, [((0, 0), 2)]⟩, ⟨1, 1, [((0, 0), 3)]⟩] 0 1 0
    (by decide)

/-- C9: when the underlying read fails with the `ENOENT` code, construction
from a file fails with a `NotFoundError` naming that path, and that error is a
different category from every `FormatError` (`notEnoughLines`, `badHeader`,
`badLine`), from the `DimensionMismatchError` and from a generic read failure. -/
theorem claim_missing_file (path : String) (e : FsErr) (h : e.code = "ENOENT") :
    fromFile path (.error e) = .error (.notFound path) ∧
    (∀ (p p2 : String) (n : Nat) (l : Str) (msg code2 : String),
      Err.notFound p ≠ Err.badHeader p2 ∧
      Err.notFound p ≠ Err.badLine n l p2 ∧
      Err.notFound p ≠ Err.notEnoughLines p2 ∧
      Err.notFound p ≠ Err.dimMismatch msg ∧
      Err.notFound p ≠ Err.ioErr code2) := by
  constructor
  · simp [fromFile, h]
  · exact fun p p2 n l msg code2 =>
      ⟨by simp, by simp, by simp, by simp, by simp⟩

theorem claim_missing_file_witness :
    fromFile "data/m1.txt" (.error ⟨"ENOENT"⟩) = .error (.notFound "data/m1.txt") ∧
    (∀ (p p2 : String) (n : Nat) (l : Str) (msg code2 : String),
      Err.notFound p ≠ Err.badHeader p2 ∧
      Err.notFound p ≠ Err.badLine n l p2 ∧
      Err.notFound p ≠ Err.notEnoughLines p2 ∧
      Err.notFound p ≠ Err.dimMismatch msg ∧
      Err.notFound p ≠ Err.ioErr code2) :=
  claim_missing_file "data/m1.txt" ⟨"ENOENT"⟩ rfl

/-- C10: `setElement(r, c, v)` changes `getElement` only at `(r, c)` — there it
returns `v`, and at every other coordinate the value is unchanged — and the
comma-joined string key encoding is injective, so distinct coordinate pairs
never collide. -/
theorem claim_setElement_frame (m : SparseMatrix) (r c : Nat) (v : Int) :
    (m.setElement r c v).getElement r c = v ∧
    (∀ r2 c2, (r2, c2) ≠ (r, c) →
      (m.setElement r c v).getElement r2 c2 = m.getElement r2 c2) ∧
    (∀ r2 c2 r3 c3 : Nat, keyChars r2 c2 = keyChars r3 c3 → r2 = r3 ∧ c2 = c3) :=
  ⟨SparseMatrix.getElement_setElement_self m r c v,
   fun r2 c2 h => SparseMatrix.getElement_setElement_ne m r c r2 c2 v h,
   fun r2 c2 r3 c3 h => keyChars_inj r2 c2 r3 c3 h⟩

theorem claim_setElement_frame_witness :
    ((⟨1, 1, [((0, 0), 4)]⟩ : SparseMatrix).setElement 2 3 9).getElement 2 3 = 9 ∧
    ((⟨1, 1, [((0, 0), 4)]⟩ : SparseMatrix).setElement 2 3 9).getElement 0 0 =
      (⟨1, 1, [((0, 0), 4)]⟩ : SparseMatrix).getElement 0 0 :=
  ⟨(claim_setElement_frame ⟨1, 1, [((0, 0), 4)]⟩ 2 3 9).1,
   (claim_setElement_frame ⟨1, 1, [((0, 0), 4)]⟩ 2 3 9).2.1 0 0 (by decide)⟩
